import Mathlib

/-!
Shallow embedding of `src/extract_data.py` from the repository
`mumuvrf/analise_bancos_stj`, together with theorems settling the frozen
claims about its specification.

Conventions of the embedding:
* Python strings are Lean `String`s; most machinery works on `List Char`
  (`String.data`).  Python's `None` is `Option.none`; a Python value that is
  `str | None` is an `Option String`.
* Python regular-expression searches are compiled, pattern by pattern, into
  explicit scanning functions over `List Char` that realize the leftmost-match
  and greedy/lazy backtracking semantics of the concrete pattern in question.
  Each such function carries a doc comment quoting the pattern it implements.
* Unicode: the code normalizes text with NFD decomposition followed by
  dropping combining marks (category `Mn`).  The embedding models the NFD
  table on the repertoire of characters this corpus and vocabulary can
  produce (the Latin-1 / Latin Extended letters used in Portuguese legal
  text); characters outside that repertoire are modelled as NFD-invariant.
-/

namespace BancosSTJ

/-! ## Character predicates -/

/-- Python's whitespace set, as used both by `str.strip`/`str.split` and by
the regex class `\s` (for the character repertoire relevant here):
space, `\t`, `\n`, `\r`, `\x0b`, `\x0c`, plus the common Unicode whitespace
characters `\x1c`-`\x1f`, `\x85`, `\xa0`, U+2000-U+200A, U+2028, U+2029,
U+202F, U+205F, U+3000. -/
def isPySpace (c : Char) : Bool :=
  c = ' ' || c = '\t' || c = '\n' || c = '\r' || c.val = 0x0b || c.val = 0x0c ||
  (0x1c ≤ c.val && c.val ≤ 0x1f) || c.val = 0x85 || c.val = 0xa0 ||
  (0x2000 ≤ c.val && c.val ≤ 0x200a) || c.val = 0x2028 || c.val = 0x2029 ||
  c.val = 0x202f || c.val = 0x205f || c.val = 0x3000

/-- ASCII digit, the regex class `\d` restricted as Python applies it here
(all digits appearing in this corpus are ASCII). -/
def isDigitC (c : Char) : Bool := '0' ≤ c && c ≤ '9'

/-- A word character for Python's `\b` word boundary: letters, digits and
underscore.  Letters beyond ASCII are modelled for the Latin-1 range used in
Portuguese text (`À`-`ÿ` except the two operator signs `×` and `÷`),
which covers every character these patterns can meet around a boundary. -/
def isWordChar (c : Char) : Bool :=
  ('a' ≤ c && c ≤ 'z') || ('A' ≤ c && c ≤ 'Z') || isDigitC c || c = '_' ||
  (0xc0 ≤ c.val && c.val ≤ 0xff && c.val ≠ 0xd7 && c.val ≠ 0xf7) ||
  c.val = 0xaa || c.val = 0xba

/-! ## Python `str` primitives -/

/-- `str.strip()` on a list of characters: drop leading and trailing
whitespace. -/
def stripL (l : List Char) : List Char :=
  ((l.dropWhile isPySpace).reverse.dropWhile isPySpace).reverse

/-- `str.strip()`. -/
def stripS (s : String) : String := ⟨stripL s.data⟩

/-- Substring containment, Python's `needle in haystack` on strings. -/
def containsSub (needle haystack : List Char) : Bool :=
  haystack.tails.any (fun t => needle.isPrefixOf t)

/-- Python `needle in haystack` for `String`s. -/
def containsSubS (needle haystack : String) : Bool :=
  containsSub needle.data haystack.data

/-- `str.split()` with no argument: split on runs of whitespace, returning
the (non-empty) words.  `acc` accumulates the current word reversed. -/
def splitWsGo (acc : List Char) : List Char → List (List Char)
  | [] => if acc.isEmpty then [] else [acc.reverse]
  | c :: t =>
    if isPySpace c then
      if acc.isEmpty then splitWsGo [] t else acc.reverse :: splitWsGo [] t
    else splitWsGo (c :: acc) t

/-- Python `s.split()` (whitespace words) on a list of characters. -/
def splitWsL (l : List Char) : List (List Char) := splitWsGo [] l

/-- Python `s.split()` returning `String`s. -/
def splitWsS (s : String) : List String := (splitWsL s.data).map (⟨·⟩)

/-- Split on a single separator character, Python `s.split(sep)` (keeping
empty pieces), accumulator style. -/
def splitOnCharGo (sep : Char) (acc : List Char) : List Char → List (List Char)
  | [] => [acc.reverse]
  | c :: t =>
    if c = sep then acc.reverse :: splitOnCharGo sep [] t
    else splitOnCharGo sep (c :: acc) t

/-- Python `s.split(sep)` for a one-character separator. -/
def splitOnChar (sep : Char) (l : List Char) : List (List Char) :=
  splitOnCharGo sep [] l

/-- Python `str.splitlines()` for the line-break repertoire occurring here:
`\n`, `\r\n`, `\r`, `\x0b`, `\x0c`, `\x1c`-`\x1e`, `\x85`, U+2028, U+2029.
A trailing terminator produces no empty final line. -/
def isLineBreak (c : Char) : Bool :=
  c = '\n' || c = '\r' || c.val = 0x0b || c.val = 0x0c ||
  (0x1c ≤ c.val && c.val ≤ 0x1e) || c.val = 0x85 ||
  c.val = 0x2028 || c.val = 0x2029

/-- Worker for `splitlinesL`; `acc` is the current line reversed, `started`
tells whether any character was seen since the last break (so that a trailing
break emits no empty line, while text after it would start a fresh one). -/
def splitlinesGo (acc : List Char) : List Char → List (List Char)
  | [] => [acc.reverse]
  | '\r' :: '\n' :: t => acc.reverse :: splitlinesGo [] t
  | c :: t =>
    if isLineBreak c then acc.reverse :: splitlinesGo [] t
    else splitlinesGo (c :: acc) t

/-- Python `str.splitlines()`: note it never yields a trailing empty line for
a terminator-final string. -/
def splitlinesL (l : List Char) : List (List Char) :=
  if l.isEmpty then [] else
  match (splitlinesGo [] l).reverse with
  | [] => []
  | last :: rest => if last.isEmpty then rest.reverse else (last :: rest).reverse

/-- Python `'; '.join`-style joining with an arbitrary separator list. -/
def joinWith (sep : List Char) : List (List Char) → List Char
  | [] => []
  | [w] => w
  | w :: ws => w ++ sep ++ joinWith sep ws

/-! ## Case mapping (Python `str.upper` / `str.lower`) on the repertoire -/

/-- Upper-case a character the way Python's `str.upper` does on the
Latin repertoire of this corpus (ASCII `a`–`z` are `0x61`–`0x7a`, the
Latin-1 lowercase letters are `0xe0`–`0xfe` minus `÷` = `0xf7`, and
`ÿ` = `0xff` maps to `Ÿ` = `0x178`; `ß`, which upper-cases to two letters
in Python, is handled in `upperL`). -/
def upperChar (c : Char) : Char :=
  if 0x61 ≤ c.toNat && c.toNat ≤ 0x7a then Char.ofNat (c.toNat - 32)
  else if 0xe0 ≤ c.toNat && c.toNat ≤ 0xfe && c.toNat ≠ 0xf7 then
    Char.ofNat (c.toNat - 32)
  else if c.toNat = 0xff then Char.ofNat 0x178
  else c

/-- Lower-case a character, Python `str.lower` on the same repertoire
(ASCII `A`–`Z` are `0x41`–`0x5a`, the Latin-1 uppercase letters are
`0xc0`–`0xde` minus `×` = `0xd7`). -/
def lowerChar (c : Char) : Char :=
  if 0x41 ≤ c.toNat && c.toNat ≤ 0x5a then Char.ofNat (c.toNat + 32)
  else if 0xc0 ≤ c.toNat && c.toNat ≤ 0xde && c.toNat ≠ 0xd7 then
    Char.ofNat (c.toNat + 32)
  else c

/-- Python `str.upper` on a character list (`ß` expands to `SS`). -/
def upperL (l : List Char) : List Char :=
  l.flatMap (fun c => if c.toNat = 0xdf then ['S', 'S'] else [upperChar c])

/-- Python `str.lower` on a character list. -/
def lowerL (l : List Char) : List Char := l.map lowerChar

/-- Python `str.upper` on `String`. -/
def upperS (s : String) : String := ⟨upperL s.data⟩

/-- Python `str.lower` on `String`. -/
def lowerS (s : String) : String := ⟨lowerL s.data⟩

/-- Case-insensitive character comparison, Python regex `re.IGNORECASE`
semantics restricted to this repertoire: compare lower-cased characters. -/
def eqCI (a b : Char) : Bool := lowerChar a = lowerChar b

/-- Case-insensitive list equality-as-a-pattern: does `pat` start `l`? -/
def isPrefixCI : List Char → List Char → Bool
  | [], _ => true
  | _ :: _, [] => false
  | p :: ps, c :: cs => eqCI p c && isPrefixCI ps cs

/-- Case-insensitive substring containment (`re.search` of a literal with
`re.IGNORECASE`). -/
def containsCI (needle haystack : List Char) : Bool :=
  haystack.tails.any (fun t => isPrefixCI needle t)

/-! ## The text normalizer: `normalize_text` / `normalize_upper` -/

/-- NFD decomposition table for the characters of the corpus repertoire:
each precomposed Latin letter used in Portuguese text maps to its base letter
followed by its combining mark(s).  Characters not listed are modelled as
NFD-invariant. -/
def nfdTable : List (Char × List Char) :=
  [ ('À', ['A', '̀']), ('Á', ['A', '́']), ('Â', ['A', '̂']),
    ('Ã', ['A', '̃']), ('Ä', ['A', '̈']), ('Å', ['A', '̊']),
    ('Ç', ['C', '̧']), ('È', ['E', '̀']), ('É', ['E', '́']),
    ('Ê', ['E', '̂']), ('Ë', ['E', '̈']), ('Ì', ['I', '̀']),
    ('Í', ['I', '́']), ('Î', ['I', '̂']), ('Ï', ['I', '̈']),
    ('Ñ', ['N', '̃']), ('Ò', ['O', '̀']), ('Ó', ['O', '́']),
    ('Ô', ['O', '̂']), ('Õ', ['O', '̃']), ('Ö', ['O', '̈']),
    ('Ù', ['U', '̀']), ('Ú', ['U', '́']), ('Û', ['U', '̂']),
    ('Ü', ['U', '̈']), ('Ý', ['Y', '́']),
    ('à', ['a', '̀']), ('á', ['a', '́']), ('â', ['a', '̂']),
    ('ã', ['a', '̃']), ('ä', ['a', '̈']), ('å', ['a', '̊']),
    ('ç', ['c', '̧']), ('è', ['e', '̀']), ('é', ['e', '́']),
    ('ê', ['e', '̂']), ('ë', ['e', '̈']), ('ì', ['i', '̀']),
    ('í', ['i', '́']), ('î', ['i', '̂']), ('ï', ['i', '̈']),
    ('ñ', ['n', '̃']), ('ò', ['o', '̀']), ('ó', ['o', '́']),
    ('ô', ['o', '̂']), ('õ', ['o', '̃']), ('ö', ['o', '̈']),
    ('ù', ['u', '̀']), ('ú', ['u', '́']), ('û', ['u', '̂']),
    ('ü', ['u', '̈']), ('ý', ['y', '́']), ('ÿ', ['y', '̈']) ]

/-- `unicodedata.normalize('NFD', ·)` on one character of the modelled
repertoire. -/
def nfdChar (c : Char) : List Char :=
  match nfdTable.find? (fun p => p.1 = c) with
  | some p => p.2
  | none => [c]

/-- Combining marks of the modelled repertoire (Unicode block
U+0300-U+036F, all of category `Mn`). -/
def isMn (c : Char) : Bool := 0x300 ≤ c.val && c.val ≤ 0x36f

/-- NFD-decompose and drop combining marks: the first two lines of
`normalize_text`. -/
def nfdStrip (l : List Char) : List Char :=
  (l.flatMap nfdChar).filter (fun c => !isMn c)

/-- `re.sub(r'\s+', ' ', s)`: replace every maximal run of whitespace with a
single space.  `prevWs` records whether the previous character was part of a
whitespace run already replaced. -/
def collapseWs (prevWs : Bool) : List Char → List Char
  | [] => []
  | c :: t =>
    if isPySpace c then
      if prevWs then collapseWs true t else ' ' :: collapseWs true t
    else c :: collapseWs false t

/-- Core of `normalize_text` on a non-empty string: NFD, drop `Mn`,
collapse whitespace runs, strip ends. -/
def normCoreL (l : List Char) : List Char :=
  stripL (collapseWs false (nfdStrip l))

/-- `normalize_text` on a `String` argument (the Python function also
returns falsy input unchanged; the empty string takes that branch). -/
def normalizeTextS (s : String) : String :=
  if s = "" then s else ⟨normCoreL s.data⟩

/-- `normalize_text(s)` with its `Optional[str]` signature:
`if not s: return s`, else strip accents and normalize spaces. -/
def normalize_text : Option String → Option String
  | none => none
  | some s => some (normalizeTextS s)

/-- `normalize_upper(s)`: `normalize_text(s).upper() if s else s`. -/
def normalizeUpperS (s : String) : String :=
  if s = "" then s else upperS (normalizeTextS s)

/-- `normalize_upper` with its `Optional[str]` signature. -/
def normalize_upper : Option String → Option String
  | none => none
  | some s => some (normalizeUpperS s)

/-- Python truthiness of a `str | None` value: `None` and `""` are falsy. -/
def truthy : Option String → Bool
  | none => false
  | some s => s ≠ ""

/-! ## Fixed vocabulary tables -/

/-- `COMMON_BANKS` verbatim from the source. -/
def COMMON_BANKS : List String :=
  [ "ITAÚ UNIBANCO", "ITAU UNIBANCO", "ITAU", "BANCO DO BRASIL", "BRADESCO",
    "SANTANDER", "CAIXA ECONOMICA FEDERAL", "CAIXA ECONOMICA", "CAIXA",
    "BANCO SAFRA", "BANCO MERCANTIL", "BANCO RURAL", "BANCO PAN", "BANCO INTER" ]

/-- `ROLE_LABELS` verbatim from the source (note the unaccented `REU`
preceding the accented `RÉU`). -/
def ROLE_LABELS : List String :=
  [ "AGRAVANTE", "AGRAVADO", "RECORRENTE", "RECORRIDO",
    "EMBARGANTE", "EMBARGADO", "AUTOR", "REU", "RÉU", "INTERESSADO" ]

/-- `OUTCOME_PATTERNS`.  Each regex of the source is represented by the
finite list of literal strings whose case-insensitive containment in the
subject is equivalent to the corresponding `re.search(pat, ·, re.IGNORECASE)`
succeeding — the patterns use only literals, one-character alternations
(`[MR]?`, `E[AU]`) and finite optional groups, so each denotes a finite set
of words:
* `NEGA[MR]? PROVIMENTO` ≡ {`NEGA PROVIMENTO`, `NEGAM PROVIMENTO`, `NEGAR PROVIMENTO`}
* `ACOLHE( O| O?A)? RECURSO` ≡ {`ACOLHE RECURSO`, `ACOLHE O RECURSO`, `ACOLHE A RECURSO`, `ACOLHE OA RECURSO`}
* `JULGAR(IM)?PROCEDENTE` ≡ {`JULGARPROCEDENTE`, `JULGARIMPROCEDENTE`}
and every other pattern is a plain literal. -/
def OUTCOME_PATTERNS : List (String × List (List String)) :=
  [ ("negar_provimento",
      [["NEGA PROVIMENTO", "NEGAM PROVIMENTO", "NEGAR PROVIMENTO"],
       ["NEGAR PROVIMENTO"],
       ["NEGA-SE PROVIMENTO"]]),
    ("dar_provimento",
      [["DAR PROVIMENTO"],
       ["DEA PROVIMENTO", "DEU PROVIMENTO"],
       ["PROVIDO"],
       ["ACOLHE RECURSO", "ACOLHE O RECURSO", "ACOLHE A RECURSO", "ACOLHE OA RECURSO"]]),
    ("julgar_improcedente",
      [["JULGARPROCEDENTE", "JULGARIMPROCEDENTE"],
       ["IMPROCEDENTE"]]),
    ("julgar_procedente",
      [["JULGAR PROCEDENTE"],
       ["PROCEDENTE"]]),
    ("prejudicado", [["PREJUDICAD"]]),
    ("extinto", [["EXTINTO"], ["EXTINGUIR"]]) ]

/-! ## Party block location: `extract_partes_block` -/

/-- A generic leftmost scanner: try the position matcher `f` (which sees the
previous character, for word boundaries, and the rest of the text) at every
position left to right; return the first index where it fires together with
its payload. -/
def scanGo {α : Type} (f : Option Char → List Char → Option α) :
    Option Char → Nat → List Char → Option (Nat × α)
  | prev, i, [] =>
    match f prev [] with
    | some a => some (i, a)
    | none => none
  | prev, i, c :: t =>
    match f prev (c :: t) with
    | some a => some (i, a)
    | none => scanGo f (some c) (i + 1) t

/-- Leftmost search over a character list. -/
def scanL {α : Type} (f : Option Char → List Char → Option α)
    (l : List Char) : Option (Nat × α) :=
  scanGo f none 0 l

/-- Word boundary `\b` between `prev` and the (word) character that a pattern
is about to consume. -/
def boundaryBefore (prev : Option Char) : Bool :=
  match prev with
  | none => true
  | some c => !isWordChar c

/-- Word boundary `\b` after a word character, before the rest `t`. -/
def boundaryAfterWord (t : List Char) : Bool :=
  match t with
  | [] => true
  | c :: _ => !isWordChar c

/-- `re.search(r'(RELAT[ÓO]RIO|RELATORIO)', txt, re.IGNORECASE)`:
leftmost case-insensitive occurrence of `RELATÓRIO` or `RELATORIO` (both
nine characters, so start and end positions agree); payload is the match
length. -/
def searchRelatorio (l : List Char) : Option (Nat × Nat) :=
  scanL (fun _ rest =>
    if isPrefixCI "RELATÓRIO".data rest || isPrefixCI "RELATORIO".data rest
    then some 9 else none) l

/-- `re.search(r'\bVOTO\b|\bVOTO DO RELATOR\b|\bVOTOS\b', txt, re.IGNORECASE)`:
at each position the three alternatives are tried in order; payload is the
match length. -/
def searchVoto (l : List Char) : Option (Nat × Nat) :=
  scanL (fun prev rest =>
    if boundaryBefore prev && isPrefixCI "VOTO".data rest &&
        boundaryAfterWord (rest.drop 4) then some 4
    else if boundaryBefore prev && isPrefixCI "VOTO DO RELATOR".data rest &&
        boundaryAfterWord (rest.drop 15) then some 15
    else if boundaryBefore prev && isPrefixCI "VOTOS".data rest &&
        boundaryAfterWord (rest.drop 5) then some 5
    else none) l

/-- `extract_partes_block`: the text between `RELATÓRIO` and `VOTO` when both
occur in that order, else everything before `VOTO`, else the first 1500
characters. -/
def extract_partes_block (txt : String) : String :=
  let l := txt.data
  match searchRelatorio l, searchVoto l with
  | some (rs, rlen), some (vs, _) =>
    if rs < vs then ⟨(l.drop (rs + rlen)).take (vs - (rs + rlen))⟩
    else ⟨l.take 1500⟩
  | none, some (vs, _) => ⟨l.take vs⟩
  | some _, none => ⟨l.take 1500⟩
  | none, none => ⟨l.take 1500⟩

/-! ## Party parsing: `extract_partes_from_block` -/

/-- The character class `[A-ZÀ-Ý0-9\s]` of the party-label pattern (note
that U+00C0–U+00DD includes `×`, faithful to the range in the source). -/
def labelClass (c : Char) : Bool :=
  ('A' ≤ c && c ≤ 'Z') || (0xc0 ≤ c.val && c.val ≤ 0xdd) ||
  isDigitC c || isPySpace c

/-- The separator class `[:\-–]`. -/
def sepChar (c : Char) : Bool := c = ':' || c = '-' || c = '–'

/-- Backtracking core of `re.match(r'^([A-ZÀ-Ý0-9\s]{3,50})\s*[:\-–]\s*(.+)$', line)`.
The label group is greedy, so candidate label lengths `g` are tried from the
largest down (the countdown argument), each followed by maximal `\s*` and the
separator; on success the second group is `\s*(.+)$` after the separator
(when only whitespace follows the separator, `.+` backtracks to consume the
final whitespace character).  Returns `(group 1, group 2)`. -/
def labelMatchGo (line : List Char) : Nat → Option (List Char × List Char)
  | 0 => none
  | g + 1 =>
    if g + 1 < 3 then none
    else
      match (line.drop (g + 1)).dropWhile isPySpace with
      | c :: r =>
        if sepChar c then
          match r.dropWhile isPySpace, (r.takeWhile isPySpace).getLast? with
          | g2 :: g2t, _ => some (line.take (g + 1), g2 :: g2t)
          | [], some w => some (line.take (g + 1), [w])
          | [], none => labelMatchGo line g
        else labelMatchGo line g
      | [] => labelMatchGo line g

/-- `re.match` of the party-label pattern against a (stripped) line. -/
def labelMatch (line : List Char) : Option (List Char × List Char) :=
  labelMatchGo line (min 50 (line.takeWhile labelClass).length)

/-- Backtracking core of the continuation test
`re.match(r'^[A-ZÀ-Ý0-9\s]{3,50}\s*[:\-–]', line)`: same label search but
only the separator is required. -/
def labelSepGo (line : List Char) : Nat → Bool
  | 0 => false
  | g + 1 =>
    if g + 1 < 3 then false
    else
      match (line.drop (g + 1)).dropWhile isPySpace with
      | c :: _ => if sepChar c then true else labelSepGo line g
      | [] => labelSepGo line g

/-- Does a (stripped) line look like a new `LABEL: rest` entry? -/
def labelSepMatch (line : List Char) : Bool :=
  labelSepGo line (min 50 (line.takeWhile labelClass).length)

/-- `for r in ROLE_LABELS: if r in label_upper: matched_role = r; break`. -/
def matchedRoleOf (labelUpper : String) : Option String :=
  ROLE_LABELS.find? (fun r => containsSubS r labelUpper)

/-- `partes.setdefault(matched_role, []).append(clean_name)` on the
insertion-ordered association list of collected parties. -/
def addParte (acc : List (String × List String)) (role : String)
    (name : String) : List (String × List String) :=
  match acc with
  | [] => [(role, [name])]
  | (r, ns) :: t =>
    if r = role then (r, ns ++ [name]) :: t else (r, ns) :: addParte t role name

/-- A line absorbed as a continuation: non-blank after stripping and not
itself a new `LABEL: rest` entry. -/
def contLine (ln : String) : Bool :=
  !(stripS ln).data.isEmpty && !labelSepMatch (stripS ln).data

/-- The scanning loop of `extract_partes_from_block`: process lines in
order; a line whose label matches a known role absorbs the following
continuation lines (appended with a single space each) and the scan resumes
after them.  `fuel` is an upper bound on the number of remaining lines
(every step consumes at least one line, so `lines.length` is enough). -/
def partesGo : Nat → List String → List (String × List String) →
    List (String × List String)
  | 0, _, acc => acc
  | _ + 1, [], acc => acc
  | fuel + 1, line :: rest, acc =>
    let l := stripS line
    match labelMatch l.data with
    | some (g1, g2) =>
      match matchedRoleOf (normalizeUpperS ⟨stripL g1⟩) with
      | some role =>
        let contl := rest.takeWhile contLine
        let name := contl.foldl (fun n ln => n ++ ' ' :: (stripS ln).data) (stripL g2)
        let clean := normalizeTextS ⟨name⟩
        let acc' := if clean ≠ "" then addParte acc role clean else acc
        partesGo fuel (rest.drop contl.length) acc'
      | none => partesGo fuel rest acc
    | none => partesGo fuel rest acc

/-- `' '.join(n.split())` followed by order-preserving removal of exact
duplicates (`seen` accumulates what was already kept). -/
def dedupGo (seen : List String) : List String → List String
  | [] => []
  | n :: t =>
    let nn : String := ⟨joinWith [' '] (splitWsL n.data)⟩
    if seen.contains nn then dedupGo seen t
    else nn :: dedupGo (nn :: seen) t

/-- `extract_partes_from_block`: parse role-labelled party entries out of a
block, then flatten each role's names to a single `'; '`-joined string
without repetitions. -/
def extract_partes_from_block (block : String) : List (String × Option String) :=
  let lines := (splitlinesL block.data).map (fun l => (⟨l⟩ : String))
  let partes := partesGo lines.length lines []
  partes.map (fun rn =>
    let unique := dedupGo [] rn.2
    (rn.1, if unique.isEmpty then none
           else some ⟨joinWith [';', ' '] (unique.map String.data)⟩))

/-! ## Case number and state: `extract_processo_and_estado` -/

/-- The class `[0-9.\-\/]` (written `[0-9\.\-\/]` in pattern 1, the same four
characters) of the case-number patterns. -/
def procClass (c : Char) : Bool :=
  isDigitC c || c = '.' || c = '-' || c = '/'

/-- ASCII letter, the class `[A-Z]` under `re.IGNORECASE`. -/
def asciiAlpha (c : Char) : Bool :=
  ('A' ≤ c && c ≤ 'Z') || ('a' ≤ c && c ≤ 'z')

/-- Uppercase ASCII letter, the class `[A-Z]` without flags. -/
def asciiUpper (c : Char) : Bool := 'A' ≤ c && c ≤ 'Z'

/-- Number of leading whitespace characters (`\s*` maximal munch). -/
def wsLen (l : List Char) : Nat := (l.takeWhile isPySpace).length

/-- `-\s*([A-Z]{2})` anchored at `l` (the `[A-Z]{2}` is case-insensitive in
patterns compiled with `re.IGNORECASE`); returns the two captured letters
and the consumed length. -/
def dashStateAt (l : List Char) : Option (List Char × Nat) :=
  match l with
  | '-' :: r =>
    let w := wsLen r
    (match r.drop w with
     | a :: b :: _ =>
       if asciiAlpha a && asciiAlpha b then some ([a, b], 1 + w + 2) else none
     | _ => none)
  | _ => none

/-- `\s*(?:-\s*([A-Z]{2}))` anchored at `l`: leading `\s*` then the dash
form; returns the letters and consumed length. -/
def wsDashStateAt (l : List Char) : Option (List Char × Nat) :=
  let w := wsLen l
  (dashStateAt (l.drop w)).map (fun p => (p.1, w + p.2))

/-- Greedy countdown over the end of a `[0-9...]`-class run followed by the
required `\s*-\s*([A-Z]{2})` (pattern 1): candidate group-1 lengths are
tried from the run's length down to 4 (the leading `[0-9]{4,}` guarantees at
least four digits, checked by the caller).  Returns
`(group 1, state letters, consumed length)`. -/
def numStateGo (l : List Char) : Nat → Option (List Char × List Char × Nat)
  | 0 => none
  | e + 1 =>
    if e + 1 < 4 then none
    else
      match wsDashStateAt (l.drop (e + 1)) with
      | some (st, k) => some (l.take (e + 1), st, e + 1 + k)
      | none => numStateGo l e

/-- Pattern 1, `\bN(?:º|°|o)\s*[:.]?\s*([0-9]{4,}[0-9\.\-\/]*)\s*(?:-\s*([A-Z]{2}))`
(the digit-class escapes written with an extra backslash here; same class),
anchored at one position (with `prev` the preceding character for `\b`).
Payload `(group 1, optional group 2, match length)`. -/
def p1At (prev : Option Char) (rest : List Char) :
    Option (List Char × Option (List Char) × Nat) :=
  if !boundaryBefore prev then none
  else
    match rest with
    | n :: o :: r =>
      if eqCI 'N' n && (o = 'º' || o = '°' || eqCI 'o' o) then
        let w1 := wsLen r
        let r1 := r.drop w1
        let (optLen, r2) :=
          match r1 with
          | c :: t => if c = ':' || c = '.' then (1, t) else (0, r1)
          | [] => (0, r1)
        let w2 := wsLen r2
        let r3 := r2.drop w2
        let run := (r3.takeWhile procClass).length
        let digs := (r3.takeWhile isDigitC).length
        if 4 ≤ digs then
          match numStateGo r3 run with
          | some (g1, st, k) => some (g1, some st, 2 + w1 + optLen + w2 + k)
          | none => none
        else none
      else none
    | _ => none

/-- `N(?:º|o)` anchored at `l` (patterns 2 and 3): returns the rest after
the two characters. -/
def enneMarkAt (l : List Char) : Option (List Char) :=
  match l with
  | n :: o :: r =>
    if eqCI 'N' n && (o = 'º' || eqCI 'o' o) then some r else none
  | _ => none

/-- `([0-9.\-\/]+)\s*(?:-\s*([A-Z]{2}))?` anchored at `l` (patterns 2 and 5):
the group takes the maximal class run (at least one character); the optional
state group is tried after the greedy `\s*` and simply omitted when it does
not fit (the empty alternative of `?` succeeds, so the run is never
shortened).  Returns `(group, optional state, consumed length)`. -/
def procRunStateAt (l : List Char) :
    Option (List Char × Option (List Char) × Nat) :=
  let run := (l.takeWhile procClass).length
  if run = 0 then none
  else
    let afterRun := l.drop run
    let w := wsLen afterRun
    match dashStateAt (afterRun.drop w) with
    | some (st, k) => some (l.take run, some st, run + w + k)
    | none => some (l.take run, none, run + w)

/-- `\.?\s*` followed by `([0-9.\-\/]+)\s*(?:-\s*([A-Z]{2}))?` anchored at
`l` (patterns 2 and 5 continuation).  The optional dot is greedy but gives
itself back when the number group cannot otherwise start — a dot is itself
a class character (cf. `REsp. x` vs `Nº.7`).  `used` counts characters
already consumed before `l`. -/
def dotRunStateAt (l : List Char) (used : Nat) :
    Option (List Char × Option (List Char) × Nat) :=
  let tryFrom := fun (l2 : List Char) (d : Nat) =>
    let w2 := wsLen l2
    (procRunStateAt (l2.drop w2)).map
      (fun p => (p.1, p.2.1, used + d + w2 + p.2.2))
  match l with
  | '.' :: t =>
    (match tryFrom t 1 with
     | some res => some res
     | none => tryFrom l 0)
  | _ => tryFrom l 0

/-- Pattern 2, `\bPROCESSO\s*(?:N(?:º|o)\.?)\s*([0-9.\-\/]+)\s*(?:-\s*([A-Z]{2}))?`. -/
def p2At (prev : Option Char) (rest : List Char) :
    Option (List Char × Option (List Char) × Nat) :=
  if boundaryBefore prev && isPrefixCI "PROCESSO".data rest then
    let r := rest.drop 8
    let w := wsLen r
    match enneMarkAt (r.drop w) with
    | some r2 => dotRunStateAt r2 (8 + w + 2)
    | none => none
  else none

/-- Pattern 3, `\bRECURSO ESPECIAL\s*(?:N(?:º|o)\.?)\s*([0-9]+)\s*(?:-\s*([A-Z]{2}))`.
The digit group is followed by a class (`\s`, then `-`) disjoint from the
digits, so only its maximal extent can be completed; the trailing state is
mandatory. -/
def p3At (prev : Option Char) (rest : List Char) :
    Option (List Char × Option (List Char) × Nat) :=
  if boundaryBefore prev && isPrefixCI "RECURSO ESPECIAL".data rest then
    let r := rest.drop 16
    let w := wsLen r
    let tryFrom := fun (l2 : List Char) (d : Nat) =>
      let w2 := wsLen l2
      let l := l2.drop w2
      let digs := (l.takeWhile isDigitC).length
      if digs = 0 then none
      else
        match wsDashStateAt (l.drop digs) with
        | some (st, k2) =>
          some (l.take digs, some st, 16 + w + 2 + d + w2 + digs + k2)
        | none => none
    match enneMarkAt (r.drop w) with
    | some r2 =>
      (match r2 with
       | '.' :: t =>
         (match tryFrom t 1 with
          | some res => some res
          | none => tryFrom r2 0)
       | _ => tryFrom r2 0)
    | none => none
  else none

/-- Greedy countdown for pattern 4's trailing `\b`: the `([0-9.\-\/]+)` run is
shortened from its maximal extent until a word boundary separates its last
character from what follows. -/
def p4Go (l : List Char) : Nat → Option (List Char × Nat)
  | 0 => none
  | e + 1 =>
    let last := l.get? e
    let next := l.get? (e + 1)
    let lastW := match last with | some c => isWordChar c | none => false
    let nextW := match next with | some c => isWordChar c | none => false
    if lastW ≠ nextW then some (l.take (e + 1), e + 1)
    else p4Go l e

/-- Pattern 4, `\bREsp\.?\s*([0-9.\-\/]+)\b`.  As in `dotRunStateAt`, the
greedy optional dot backtracks when the number group cannot otherwise start
(on `REsp.x` the dot itself becomes the group: the class contains `.`). -/
def p4At (prev : Option Char) (rest : List Char) :
    Option (List Char × Option (List Char) × Nat) :=
  if boundaryBefore prev && isPrefixCI "RESP".data rest then
    let r := rest.drop 4
    let tryFrom := fun (r1 : List Char) (d : Nat) =>
      let w := wsLen r1
      let l := r1.drop w
      let run := (l.takeWhile procClass).length
      (p4Go l run).map (fun p => (p.1, (none : Option (List Char)), 4 + d + w + p.2))
    match r with
    | '.' :: t =>
      (match tryFrom t 1 with
       | some res => some res
       | none => tryFrom r 0)
    | _ => tryFrom r 0
  else none

/-- Pattern 5, `\bProcesso:\s*([0-9.\-\/]+)\s*(?:-\s*([A-Z]{2}))?`. -/
def p5At (prev : Option Char) (rest : List Char) :
    Option (List Char × Option (List Char) × Nat) :=
  if boundaryBefore prev && isPrefixCI "PROCESSO:".data rest then
    let r := rest.drop 9
    let w := wsLen r
    (procRunStateAt (r.drop w)).map (fun p => (p.1, p.2.1, 9 + w + p.2.2))
  else none

/-- `re.search(r'-\s*([A-Z]{2})', tail)` (no flags): the fallback that looks
for a `-XX` state suffix in the 40 characters following a match. -/
def searchDashUpper (l : List Char) : Option (List Char) :=
  (scanL (fun _ rest =>
    match rest with
    | '-' :: r =>
      let w := wsLen r
      (match r.drop w with
       | a :: b :: _ => if asciiUpper a && asciiUpper b then some [a, b] else none
       | _ => none)
    | _ => none) l).map Prod.snd

/-- `extract_processo_and_estado`: try the five patterns in order; from the
first match take the number, then the state either from the same match
(when its captured group is two uppercase letters, per the
`re.fullmatch(r'[A-Z]{2}', ·)` check) or from a `-XX` within the 40
characters after the match. -/
def extract_processo_and_estado (txt : String) : Option String × Option String :=
  let l := txt.data
  let pats : List (Option Char → List Char →
      Option (List Char × Option (List Char) × Nat)) :=
    [p1At, p2At, p3At, p4At, p5At]
  match pats.firstM (fun p => (scanL p l).map (fun r => (r.1, r.2))) with
  | some (start, g1, g2, len) =>
    let proc : String := ⟨stripL g1⟩
    let estado : Option String :=
      match g2 with
      | some st =>
        if (stripL st).length = 2 && (stripL st).all asciiUpper then
          some ⟨upperL (stripL st)⟩
        else
          (searchDashUpper ((l.drop (start + len)).take 40)).map (fun s => ⟨s⟩)
      | none =>
        (searchDashUpper ((l.drop (start + len)).take 40)).map (fun s => ⟨s⟩)
    (some proc, estado)
  | none => (none, none)

/-! ## Ruling type: `extract_tipo_processo` -/

/-- `re.search(r'\b' + re.escape(phrase) + r'\b', txt, re.IGNORECASE)` for a
phrase beginning and ending in word characters. -/
def searchPhraseB (phrase : String) (l : List Char) : Bool :=
  (scanL (fun prev rest =>
    if boundaryBefore prev && isPrefixCI phrase.data rest &&
        boundaryAfterWord (rest.drop phrase.data.length) then some () else none)
    l).isSome

/-- The fixed ruling-type list, in priority order. -/
def tiposList : List String :=
  [ "AGRAVO EM RECURSO ESPECIAL", "RECURSO ESPECIAL", "AGRAVO INTERNO",
    "AGRAVO DE INSTRUMENTO", "EMBARGOS DE DECLARAÇÃO" ]

/-- `re.match(r'^(.*?)\s+N(?:º|o|°)\b', first_line, re.IGNORECASE)`: the
lazy `(.*?)` makes this the earliest split point whose suffix starts with
`\s+N(?:º|o|°)\b`; the alternatives are tried in order and each must be
followed by a word boundary (`º` and `o` are word characters, so they need a
non-word successor; `°` is not a word character, so it needs a word
successor). -/
def tipoFallbackSplit (line : List Char) : Option Nat :=
  (scanL (fun _ rest =>
    let w := wsLen rest
    if w = 0 then none
    else
      match rest.drop w with
      | n :: o :: t =>
        if eqCI 'N' n &&
            ((o = 'º' && boundaryAfterWord t) ||
             (eqCI 'o' o && boundaryAfterWord t) ||
             (o = '°' && (match t with | c :: _ => isWordChar c | [] => false)))
        then some () else none
      | _ => none) line).map Prod.fst

/-- `extract_tipo_processo`: first ruling-type phrase found word-bounded in
the text wins; otherwise the text before a `Nº` marker on the first line. -/
def extract_tipo_processo (txt : String) : Option String :=
  match tiposList.find? (fun t => searchPhraseB t txt.data) with
  | some t => some t
  | none =>
    let firstLine : List Char :=
      match splitlinesL txt.data with
      | [] => []
      | l :: _ => l
    match tipoFallbackSplit firstLine with
    | some j => some ⟨stripL (firstLine.take j)⟩
    | none => none

/-! ## Judgment date: `extract_data_julgamento` -/

/-- Portuguese month-name table of the source, including the
`março`/`marco` spelling variant. -/
def mesesTable : List (String × Nat) :=
  [ ("janeiro", 1), ("fevereiro", 2), ("março", 3), ("marco", 3),
    ("abril", 4), ("maio", 5), ("junho", 6), ("julho", 7), ("agosto", 8),
    ("setembro", 9), ("outubro", 10), ("novembro", 11), ("dezembro", 12) ]

/-- `meses.get(name)`. -/
def mesesLookup (name : String) : Option Nat :=
  (mesesTable.find? (fun p => p.1 = name)).map Prod.snd

/-- The month-name class `[a-zçãéíóú]` under `re.IGNORECASE`. -/
def monthClass (c : Char) : Bool :=
  asciiAlpha c ||
  c = 'ç' || c = 'ã' || c = 'é' || c = 'í' || c = 'ó' || c = 'ú' ||
  c = 'Ç' || c = 'Ã' || c = 'É' || c = 'Í' || c = 'Ó' || c = 'Ú'

/-- Decimal value of a digit string (`int(...)`). -/
def toNatDigits (l : List Char) : Nat :=
  l.foldl (fun n c => n * 10 + (c.toNat - 48)) 0

/-- `\s+de\s+([a-zçãéíóú]+)\s+de\s+(\d{4})` anchored after the day digits;
each quantified piece borders a disjoint class, so maximal munch is exact.
Returns `(month-name group, year group)`. -/
def textDateTail (l : List Char) : Option (List Char × List Char) :=
  let w1 := wsLen l
  if w1 = 0 then none
  else
    let l1 := l.drop w1
    if isPrefixCI "de".data l1 then
      let l2 := l1.drop 2
      let w2 := wsLen l2
      if w2 = 0 then none
      else
        let l3 := l2.drop w2
        let mon := l3.takeWhile monthClass
        if mon.isEmpty then none
        else
          let l4 := l3.drop mon.length
          let w3 := wsLen l4
          if w3 = 0 then none
          else
            let l5 := l4.drop w3
            if isPrefixCI "de".data l5 then
              let l6 := l5.drop 2
              let w4 := wsLen l6
              if w4 = 0 then none
              else
                let yr := (l6.drop w4).take 4
                if yr.length = 4 && yr.all isDigitC then some (mon, yr)
                else none
            else none
    else none

/-- `(\d{1,2})\s+de\s+([a-zçãéíóú]+)\s+de\s+(\d{4})` anchored at one
position: the greedy one-or-two-digit day backtracks from two digits to one.
Returns `(day, month name, year)` as captured strings. -/
def textDateAt (rest : List Char) : Option (List Char × List Char × List Char) :=
  match rest with
  | c0 :: c1 :: r =>
    if isDigitC c0 then
      if isDigitC c1 then
        match textDateTail r with
        | some (mon, yr) => some ([c0, c1], mon, yr)
        | none =>
          (textDateTail (c1 :: r)).map (fun p => ([c0], p.1, p.2))
      else (textDateTail (c1 :: r)).map (fun p => ([c0], p.1, p.2))
    else none
  | _ => none

/-- `[\/\-]`, the numeric date separator class. -/
def dateSep (c : Char) : Bool := c = '/' || c = '-'

/-- `(\d{1,2})[\/\-]` anchored at `l`: the greedy day backtracks from two
digits to one; a digit can never serve as the separator, so the choice is
forced by the character after the digits.  Returns `(digits, rest)`. -/
def dayPieceAt (l : List Char) : Option (List Char × List Char) :=
  match l with
  | c0 :: c1 :: c2 :: r =>
    if isDigitC c0 && isDigitC c1 && dateSep c2 then some ([c0, c1], r)
    else if isDigitC c0 && dateSep c1 then some ([c0], c2 :: r)
    else none
  | [c0, c1] =>
    if isDigitC c0 && dateSep c1 then some ([c0], []) else none
  | _ => none

/-- `(\d{1,2})[\/\-](\d{1,2})[\/\-](\d{4})` anchored at one position. -/
def numDateAt (rest : List Char) : Option (List Char × List Char × List Char) :=
  match dayPieceAt rest with
  | some (d, r1) =>
    (match dayPieceAt r1 with
     | some (m, r2) =>
       let yr := r2.take 4
       if yr.length = 4 && yr.all isDigitC then some (d, m, yr) else none
     | none => none)
  | none => none

/-- Is `y-m-d` a constructible `datetime.date` (proleptic Gregorian,
year 1–9999)? -/
def isLeap (y : Nat) : Bool := y % 4 = 0 && (y % 100 ≠ 0 || y % 400 = 0)

/-- Days in a month of the proleptic Gregorian calendar. -/
def daysInMonth (y m : Nat) : Nat :=
  if m = 2 then (if isLeap y then 29 else 28)
  else if m = 4 || m = 6 || m = 9 || m = 11 then 30
  else 31

/-- `datetime.date(y, m, d)` succeeds exactly on these triples. -/
def validDate (y m d : Nat) : Bool :=
  1 ≤ y && y ≤ 9999 && 1 ≤ m && m ≤ 12 && 1 ≤ d && d ≤ daysInMonth y m

/-- Zero-pad a number to two digits (`%d`, `%m`). -/
def pad2 (n : Nat) : String := if n < 10 then "0" ++ toString n else toString n

/-- `date.strftime("%d/%m/%Y")`; on this platform (glibc) `%Y` prints the
year without zero padding. -/
def fmtDate (d m y : Nat) : String :=
  pad2 d ++ "/" ++ pad2 m ++ "/" ++ toString y

/-- The captured groups of the leftmost textual-date match
(`m_texto.group(1)`, `group(2)`, `group(3)`). -/
def textDateFirst (txt : String) : Option (List Char × List Char × List Char) :=
  (scanL (fun _ rest => textDateAt rest) txt.data).map Prod.snd

/-- The captured groups of the leftmost numeric-date match
(`m_num.groups()`). -/
def numDateFirst (txt : String) : Option (List Char × List Char × List Char) :=
  (scanL (fun _ rest => numDateAt rest) txt.data).map Prod.snd

/-- The textual-pattern attempt of `extract_data_julgamento`: leftmost
textual date whose month name is known and whose calendar triple is valid
yields the formatted date; any failure falls through (to the numeric
pattern). -/
def dataTextualPart (txt : String) : Option String :=
  match textDateFirst txt with
  | some (d, mon, yr) =>
    let dia := toNatDigits d
    let ano := toNatDigits yr
    (match mesesLookup ⟨lowerL mon⟩ with
     | some mes => if validDate ano mes dia then some (fmtDate dia mes ano) else none
     | none => none)
  | none => none

/-- The numeric-pattern attempt of `extract_data_julgamento`: only the
leftmost match is examined; an invalid calendar triple yields `None`
(the `except ValueError: pass` reaches the final `return None`). -/
def dataNumericPart (txt : String) : Option String :=
  match numDateFirst txt with
  | some (d, m, yr) =>
    let dia := toNatDigits d
    let mes := toNatDigits m
    let ano := toNatDigits yr
    if validDate ano mes dia then some (fmtDate dia mes ano) else none
  | none => none

/-- `extract_data_julgamento`: textual pattern first, numeric pattern
second, `None` otherwise. -/
def extract_data_julgamento (txt : String) : Option String :=
  match dataTextualPart txt with
  | some r => some r
  | none => dataNumericPart txt

/-! ## Operative clause: `extract_dispositivo` -/

/-- `re.search(r'\b' + word + r'\b(.{0,2000})', txt, re.IGNORECASE | re.DOTALL)`
style search of the dispositivo keywords: leftmost word-bounded occurrence;
with `DOTALL` the window `.{0,2000}` greedily takes up to 2000 arbitrary
following characters.  Returns the start position (the word length is the
pattern's, handed back for the window). -/
def searchWordB (word : List Char) (l : List Char) : Option (Nat × Nat) :=
  scanL (fun prev rest =>
    if boundaryBefore prev && isPrefixCI word rest &&
        boundaryAfterWord (rest.drop word.length) then some word.length
    else none) l

/-- `extract_dispositivo`: `ACORDAM` plus its 2000-character window, else
`DISPOSITIVO` likewise, else the stripped last 1200 characters (or `None`
when that is empty). -/
def extract_dispositivo (txt : String) : Option String :=
  let l := txt.data
  match searchWordB "ACORDAM".data l with
  | some (s, wl) => some ⟨stripL ((l.drop s).take (wl + 2000))⟩
  | none =>
    match searchWordB "DISPOSITIVO".data l with
    | some (s, wl) => some ⟨stripL ((l.drop s).take (wl + 2000))⟩
    | none =>
      let tail := stripL (l.drop (l.length - 1200))
      if tail.isEmpty then none else some ⟨tail⟩

/-! ## Bank detection: `detect_bank` -/

/-- Worker for `re.sub(r'\s{2,}', ' ', ·)`: `pending` holds a single
whitespace character whose run length is still unknown (kept verbatim if
isolated); `inRun` tells that a run of two or more is being swallowed
(its single replacement space already emitted). -/
def collapse2Go : Option Char → Bool → List Char → List Char
  | pending, _, [] => (match pending with | some p => [p] | none => [])
  | pending, inRun, c :: t =>
    if isPySpace c then
      match pending with
      | some _ => ' ' :: collapse2Go none true t
      | none =>
        if inRun then collapse2Go none true t
        else collapse2Go (some c) false t
    else
      match pending with
      | some p => p :: c :: collapse2Go none false t
      | none => c :: collapse2Go none false t

/-- `re.sub(r'\s{2,}', ' ', ·)`: replace runs of two or more whitespace
characters with one space; an isolated whitespace character stays as it is. -/
def collapse2 (l : List Char) : List Char := collapse2Go none false l

/-- The class `[A-ZÀ-Ý0-9\.\-\/\s,&]` of the second bank strategy under
`re.IGNORECASE`: ASCII letters of both cases, U+00C0–U+00DD verbatim (a
range that includes `×`), the lowercase counterparts U+00E0–U+00FD of that
range (minus `÷`, which has no uppercase in it), digits, dot, dash, slash,
whitespace, comma and ampersand. -/
def bankNameClass (c : Char) : Bool :=
  asciiAlpha c || (0xc0 ≤ c.val && c.val ≤ 0xdd) ||
  (0xe0 ≤ c.val && c.val ≤ 0xfd && c.val ≠ 0xf7) ||
  isDigitC c || c = '.' || c = '-' || c = '/' || isPySpace c || c = ',' || c = '&'

/-- The lazy group `([...]{2,80}?)\b`: starting from the minimal two
characters, extend until a word boundary follows the group; `n` is the
current candidate length and `remaining` bounds how far it may still grow
(so that the group stays within the class run and within 80). -/
def lazyBoundary (l : List Char) : Nat → Nat → Option Nat
  | n, remaining =>
    let lastW := match l.get? (n - 1) with | some c => isWordChar c | none => false
    let nextW := match l.get? n with | some c => isWordChar c | none => false
    if lastW ≠ nextW then some n
    else
      match remaining with
      | 0 => none
      | r + 1 => lazyBoundary l (n + 1) r

/-- The `\s+` of `\bBANCO\s+(...)` is greedy and overlaps the group's class
(which contains `\s`), so on failure it backtracks: whitespace amounts `w`
are tried from the maximal run down to one, and for each the lazy group is
grown from two characters up. -/
def bancoWsGo (afterBanco : List Char) : Nat → Option (Nat × Nat)
  | 0 => none
  | w + 1 =>
    let l := afterBanco.drop (w + 1)
    let run := (l.takeWhile bankNameClass).length
    if run < 2 then bancoWsGo afterBanco w
    else
      match lazyBoundary l 2 (min 80 run - 2) with
      | some n => some (w + 1, n)
      | none => bancoWsGo afterBanco w

/-- `re.search(r'\bBANCO\s+([A-ZÀ-Ý0-9\.\-\/\s,&]{2,80}?)\b', txt, re.IGNORECASE)`,
returning `(m.group(0), m.group(1))`: the whole match (the word `BANCO`,
the whitespace and the captured name, in the original text's characters)
and the captured name alone. -/
def bancoRegexSearch (l : List Char) : Option (List Char × List Char) :=
  (scanL (fun prev rest =>
    if boundaryBefore prev && isPrefixCI "BANCO".data rest then
      let after := rest.drop 5
      let w := wsLen after
      if w = 0 then none
      else
        match bancoWsGo after w with
        | some (wu, n) =>
          some (rest.take (5 + wu + n), (rest.drop (5 + wu)).take n)
        | none => none
    else none) l).map Prod.snd

/-- The class `[A-Z\s\.\-,&]` of the third bank strategy under
`re.IGNORECASE`. -/
def saClass (c : Char) : Bool :=
  asciiAlpha c || isPySpace c || c = '.' || c = '-' || c = ',' || c = '&'

/-- Greedy countdown for `[A-Z\s\.\-,&]{3,80}` followed by `S\.A\.?`:
body lengths are tried from the maximal class run (capped at 80) down to
three; the optional final dot is taken greedily. -/
def saGo (l : List Char) : Nat → Option (List Char)
  | 0 => none
  | b + 1 =>
    if b + 1 < 3 then none
    else
      let after := l.drop (1 + (b + 1))
      if isPrefixCI "S.A".data after then
        let dot := match after.drop 3 with
          | '.' :: _ => 1
          | _ => 0
        some (l.take (1 + (b + 1) + 3 + dot))
      else saGo l b

/-- `re.search(r'([A-Z][A-Z\s\.\-,&]{3,80}S\.A\.?)', txt, re.IGNORECASE)`,
returning the captured group (which is the whole match). -/
def saRegexSearch (l : List Char) : Option (List Char) :=
  (scanL (fun _ rest =>
    match rest with
    | c :: t =>
      if asciiAlpha c then saGo rest (min 80 (t.takeWhile saClass).length)
      else none
    | [] => none) l).map Prod.snd

/-! ### `difflib.SequenceMatcher` / `get_close_matches`

The fuzzy third strategy calls
`get_close_matches(cand.upper(), [b.upper() for b in COMMON_BANKS], n=1, cutoff=0.7)`.
Both sequences here are far shorter than 200 characters, so difflib's
autojunk never fires and there is no junk; with no junk the two
post-processing loops of `find_longest_match` that extend the best block
over adjacent equal elements can never act (such an adjacent equality would
have produced a longer diagonal run in the dynamic programming pass,
contradicting maximality), so the embedding omits them.  The filter
`real_quick_ratio() >= cutoff and quick_ratio() >= cutoff and ratio() >= cutoff`
is equivalent to `ratio() >= cutoff` because the first two are upper bounds
of `ratio`; ratios `2*M/T` are compared here in exact rational arithmetic. -/

/-- difflib's `b2j`: the ascending positions of a character in `b`. -/
def posIdx (b : List Char) (c : Char) : List Nat :=
  (List.range b.length).filter (fun j => b.get? j = some c)

/-- Association-list lookup for the `j2len` dictionary. -/
def lookupNN (l : List (Nat × Nat)) (k : Nat) : Option Nat :=
  (l.find? (fun p => p.1 = k)).map Prod.snd

/-- One row of `find_longest_match`'s dynamic programming: for each position
`j` of `a[i]` in `b` (already restricted to `[blo, bhi)`), the diagonal run
length `k = j2len.get(j-1, 0) + 1` is recorded, and the best block is
updated when `k` strictly exceeds it. -/
def flmRow (i : Nat) (j2len : List (Nat × Nat)) :
    List Nat → List (Nat × Nat) → (Nat × Nat × Nat) → List (Nat × Nat) × (Nat × Nat × Nat)
  | [], acc, best => (acc, best)
  | j :: rest, acc, best =>
    let k := (if j = 0 then 0 else (lookupNN j2len (j - 1)).getD 0) + 1
    let best' := if k > best.2.2 then (i + 1 - k, j + 1 - k, k) else best
    flmRow i j2len rest (acc ++ [(j, k)]) best'

/-- The `for i in range(alo, ahi)` loop of `find_longest_match`, iterating
over the listed slice of `a` with running index `i`. -/
def flmLoop (bj : Char → List Nat) (blo bhi : Nat) :
    List Char → Nat → List (Nat × Nat) → (Nat × Nat × Nat) → (Nat × Nat × Nat)
  | [], _, _, best => best
  | c :: rest, i, j2len, best =>
    let js := ((bj c).takeWhile (· < bhi)).filter (fun j => blo ≤ j)
    let (nj, best') := flmRow i j2len js [] best
    flmLoop bj blo bhi rest (i + 1) nj best'

/-- `SequenceMatcher.find_longest_match(alo, ahi, blo, bhi)` with no junk:
returns `(besti, bestj, bestsize)`. -/
def findLongestMatch (a b : List Char) (alo ahi blo bhi : Nat) :
    Nat × Nat × Nat :=
  flmLoop (posIdx b) blo bhi ((a.drop alo).take (ahi - alo)) alo [] (alo, blo, 0)

/-- Total size of all matching blocks (`get_matching_blocks`' recursive
divide-and-conquer around the longest match; only the sum of block sizes is
needed for `ratio`).  The measure `(ahi-alo)+(bhi-blo)` strictly decreases,
so that quantity bounds the recursion depth and serves as fuel. -/
def msumGo (a b : List Char) : Nat → Nat → Nat → Nat → Nat → Nat
  | 0, _, _, _, _ => 0
  | fuel + 1, alo, ahi, blo, bhi =>
    let (i, j, k) := findLongestMatch a b alo ahi blo bhi
    if k = 0 then 0
    else msumGo a b fuel alo i blo j + k + msumGo a b fuel (i + k) ahi (j + k) bhi

/-- `M`: the total number of matched elements between `a` and `b`. -/
def msum (a b : List Char) : Nat :=
  msumGo a b (a.length + b.length + 1) 0 a.length 0 b.length

/-- Python string `<` (lexicographic by code point), used through the tuple
comparison inside `heapq.nlargest`. -/
def strLtPy : List Char → List Char → Bool
  | [], [] => false
  | [], _ :: _ => true
  | _ :: _, [] => false
  | a :: ar, b :: br =>
    if a.val < b.val then true
    else if b.val < a.val then false
    else strLtPy ar br

/-- `get_close_matches(word, possibilities, n=1, cutoff=0.7)`: keep the
possibilities whose ratio `2*M/(|x|+|word|)` is at least `0.7` (exact
comparison `20*M ≥ 7*T`), then `nlargest(1)` over the pairs
`(ratio, x)` — equal ratios are broken by Python string comparison of the
possibility itself, and the first of fully equal pairs wins. -/
def gcmBest (word : List Char) (poss : List (List Char)) : Option (List Char) :=
  poss.foldl (fun best x =>
    let m := msum x word
    let t := x.length + word.length
    if 20 * m ≥ 7 * t then
      match best with
      | none => some (x, m, t)
      | some (bx, bm, bt) =>
        if m * bt > bm * t || (m * bt = bm * t && strLtPy bx x)
        then some (x, m, t) else best
    else best) (none : Option (List Char × Nat × Nat))
  |>.map (fun p => p.1)

/-- Python cased letters of this repertoire (`str.title` boundaries). -/
def casedChar (c : Char) : Bool :=
  asciiAlpha c ||
  (0xc0 ≤ c.val && c.val ≤ 0xff && c.val ≠ 0xd7 && c.val ≠ 0xf7)

/-- `str.title()`: uppercase a cased character after an uncased one,
lowercase a cased character after a cased one. -/
def titleGo (prevCased : Bool) : List Char → List Char
  | [] => []
  | c :: t =>
    if casedChar c then
      (if prevCased then lowerChar c else upperChar c) :: titleGo true t
    else c :: titleGo false t

/-- `str.title()` on `String`. -/
def titleS (s : String) : String := ⟨titleGo false s.data⟩

/-- The first strategy of `detect_bank`:
`for b in COMMON_BANKS: if b.upper() in txt_n: return b` over the
normalized uppercase text. -/
def bankListHit (txt : String) : Option String :=
  COMMON_BANKS.find? (fun b => containsSub (upperL b.data) (normalizeUpperS txt).data)

/-- `detect_bank`: known-list containment on the normalized uppercase text
first; then the `BANCO ...` regex (whole match, space-collapsed, normalized);
then the `... S.A.` regex with fuzzy matching against the known list
(title-cased canonical name on a close match, the normalized capture
otherwise); else `None`. -/
def detect_bank (txt : String) : Option String :=
  match bankListHit txt with
  | some b => some b
  | none =>
    match bancoRegexSearch txt.data with
    | some g => some (normalizeTextS ⟨collapse2 (stripL g.1)⟩)
    | none =>
      match saRegexSearch txt.data with
      | some g1 =>
        let cand := normalizeTextS ⟨g1⟩
        (match gcmBest (upperL cand.data) (COMMON_BANKS.map (fun b => upperL b.data)) with
         | some m => some (titleS ⟨m⟩)
         | none => some cand)
      | none => none

/-! ## Outcome classification: `infer_decision_for_bank` -/

/-- First key of `OUTCOME_PATTERNS` one of whose phrasings matches the
normalized clause (dictionary order is insertion order). -/
def matchedOutcomeKey (dnorm : String) : Option String :=
  (OUTCOME_PATTERNS.find? (fun kp =>
    kp.2.any (fun pat => pat.any (fun e => containsCI e.data dnorm.data)))).map
    Prod.fst

/-- The role-collection loop of `infer_decision_for_bank`: for every role
with a non-falsy name string, every `';'`-separated piece containing the
bank's first token (or the whole normalized bank name) appends that role. -/
def bankRolesOf (partes : List (String × Option String)) (banco : String) :
    List String :=
  let bnToken := normalizeUpperS ⟨(splitWsL banco.data).headD []⟩
  partes.foldl (fun acc rv =>
    match rv.2 with
    | none => acc
    | some ns =>
      if ns = "" then acc
      else
        ((splitOnChar ';' ns.data).map stripL).foldl (fun acc2 nm =>
          if containsSubS bnToken (normalizeUpperS ⟨nm⟩) ||
              containsSubS (normalizeUpperS banco) (normalizeUpperS ⟨nm⟩)
          then acc2 ++ [rv.1] else acc2) acc) []

/-- The rest of a list after the first case-insensitive occurrence of
`needle` in it. -/
def dropAfterCI (needle : List Char) (l : List Char) : Option (List Char) :=
  (scanL (fun _ rest => if isPrefixCI needle rest then some () else none) l).map
    (fun p => l.drop (p.1 + needle.length))

/-- `re.search(l1 + '.*' + l2 + '.*' + l3, txt, re.IGNORECASE)` for literal
pieces containing no newline: without `re.DOTALL` the dots cannot cross a
newline, so the pattern matches iff some newline-free segment contains the
three literals in order; taking the earliest occurrence of each literal is
complete because it leaves the longest remainder. -/
def searchSeq3CI (l1 l2 l3 : List Char) (txt : List Char) : Bool :=
  (splitOnChar '\n' txt).any (fun line =>
    match dropAfterCI l1 line with
    | some r1 =>
      (match dropAfterCI l2 r1 with
       | some r2 => (dropAfterCI l3 r2).isSome
       | none => false)
    | none => false)

/-- As `searchSeq3CI` with two literal pieces. -/
def searchSeq2CI (l1 l2 : List Char) (txt : List Char) : Bool :=
  (splitOnChar '\n' txt).any (fun line =>
    match dropAfterCI l1 line with
    | some r1 => (dropAfterCI l2 r1).isSome
    | none => false)

/-- The final fallback of `infer_decision_for_bank`:
`NEGA.*PROVIMENTO.*<token>` means `contraria`, `DAR PROVIMENTO.*<token>`
means `favoravel`, else `indeterminado` (the bank guard skips a falsy
name). -/
def inferFallback (dispositivo : String) (banco_name : Option String) : String :=
  match banco_name with
  | some bn =>
    if bn = "" then "indeterminado"
    else
      let bnSimple := normalizeUpperS ⟨(splitWsL bn.data).headD []⟩
      let dn := (normalizeUpperS dispositivo).data
      if searchSeq3CI "NEGA".data "PROVIMENTO".data bnSimple.data dn then "contraria"
      else if searchSeq2CI "DAR PROVIMENTO".data bnSimple.data dn then "favoravel"
      else "indeterminado"
  | none => "indeterminado"

/-- `infer_decision_for_bank`: `None` for a falsy clause; else match the
clause against the outcome table, collect the bank's roles, and resolve
polarity (negative dispositions are `contraria` for the moving side,
positive ones the reverse; unknown falls to the textual fallback, as does a
missing outcome match). -/
def infer_decision_for_bank (dispositivo : Option String)
    (partes : List (String × Option String)) (banco_name : Option String) :
    Option String :=
  if !truthy dispositivo then none
  else
    let disp := dispositivo.getD ""
    let dnorm := normalizeUpperS disp
    let bankRoles :=
      match banco_name with
      | some bn => if bn ≠ "" && !partes.isEmpty then bankRolesOf partes bn else []
      | none => []
    match matchedOutcomeKey dnorm with
    | some k =>
      if k = "negar_provimento" || k = "julgar_improcedente" ||
          k = "prejudicado" || k = "extinto" then
        if ["AGRAVANTE", "RECORRENTE", "EMBARGANTE"].any
            (fun r => bankRoles.contains r) then some "contraria"
        else if ["AGRAVADO", "RECORRIDO", "EMBARGADO"].any
            (fun r => bankRoles.contains r) then some "favoravel"
        else some "indeterminado"
      else if k = "dar_provimento" || k = "julgar_procedente" then
        if ["AGRAVANTE", "RECORRENTE", "EMBARGANTE"].any
            (fun r => bankRoles.contains r) then some "favoravel"
        else if ["AGRAVADO", "RECORRIDO", "EMBARGADO"].any
            (fun r => bankRoles.contains r) then some "contraria"
        else some "indeterminado"
      else some (inferFallback disp banco_name)
    | none => some (inferFallback disp banco_name)

/-! ## Record assembly: `extract_acordao_data` -/

/-- The fixed key list of the result dictionary, in insertion order. -/
def schemaKeys : List String :=
  [ "processo", "tipo_processo", "data_julgamento", "estado",
    "AGRAVANTE", "AGRAVADO", "RECORRENTE", "RECORRIDO",
    "EMBARGANTE", "EMBARGADO", "AUTOR", "REU", "INTERESSADO",
    "banco", "decisao_para_banco" ]

/-- The all-`None` initial record. -/
def defaultRecord : List (String × Option String) :=
  schemaKeys.map (fun k => (k, none))

/-- Dictionary assignment `result[k] = v` on the insertion-ordered
association list (replaces in place; a genuinely new key would be appended,
which never happens in `extract_acordao_data`). -/
def setKey : List (String × Option String) → String → Option String →
    List (String × Option String)
  | [], k, v => [(k, v)]
  | (k', v') :: t, k, v =>
    if k' = k then (k', v) :: t else (k', v') :: setKey t k v

/-- `if x: result[k] = x` — assign only a truthy value. -/
def updateIf (r : List (String × Option String)) (k : String)
    (v : Option String) : List (String × Option String) :=
  if truthy v then setKey r k v else r

/-- Association-list lookup (`dict.get` / `k in d` combined). -/
def lookupKV {α : Type} (l : List (String × α)) (k : String) : Option α :=
  (l.find? (fun p => p.1 = k)).map Prod.snd

/-- The nine-role copy loop of `extract_acordao_data`. -/
def rolesList : List String :=
  [ "AGRAVANTE", "AGRAVADO", "RECORRENTE", "RECORRIDO",
    "EMBARGANTE", "EMBARGADO", "AUTOR", "REU", "INTERESSADO" ]

/-- `for role in [...]: if role in partes_flat: result[role] = partes_flat[role]`. -/
def applyRoles (r : List (String × Option String))
    (pf : List (String × Option String)) : List (String × Option String) :=
  rolesList.foldl (fun r role =>
    match lookupKV pf role with
    | some v => setKey r role v
    | none => r) r

/-- `extract_acordao_data`: the full per-document pipeline; see §4.5 of the
specification.  Returns the fixed-schema record as an insertion-ordered
association list. -/
def extract_acordao_data (text : String) : List (String × Option String) :=
  if text = "" || stripS text = "" then defaultRecord
  else
    let txt := text
    let pe := extract_processo_and_estado txt
    let r1 := updateIf defaultRecord "processo" pe.1
    let r2 := updateIf r1 "estado" pe.2
    let r3 := updateIf r2 "tipo_processo" (extract_tipo_processo txt)
    let r4 := updateIf r3 "data_julgamento" (extract_data_julgamento txt)
    let pf := extract_partes_from_block (extract_partes_block txt)
    let r5 := applyRoles r4 pf
    let banco := detect_bank txt
    let r6 := updateIf r5 "banco" banco
    let disp := extract_dispositivo txt
    let partesArg := r6.filter (fun kv => ROLE_LABELS.contains kv.1)
    let decisao := infer_decision_for_bank disp partesArg banco
    setKey r6 "decisao_para_banco" decisao

/-! ## Helper lemmas on the record structure -/

lemma stripL_nil_of_all_space {l : List Char}
    (h : ∀ c ∈ l, isPySpace c = true) : stripL l = [] := by
  unfold stripL
  rw [List.dropWhile_eq_nil_iff.mpr h]
  simp

lemma keys_setKey_of_mem :
    ∀ (r : List (String × Option String)) (k : String) (v : Option String),
      k ∈ r.map Prod.fst → (setKey r k v).map Prod.fst = r.map Prod.fst
  | [], k, v, h => by simp at h
  | (k', v') :: t, k, v, h => by
    by_cases hk : k' = k
    · simp [setKey, hk]
    · have ht : k ∈ t.map Prod.fst := by
        simp only [List.map_cons, List.mem_cons] at h
        rcases h with h | h
        · exact absurd h.symm hk
        · exact h
      simp [setKey, hk, keys_setKey_of_mem t k v ht]

lemma keys_updateIf (r : List (String × Option String)) (k : String)
    (v : Option String) (h : r.map Prod.fst = schemaKeys) (hk : k ∈ schemaKeys) :
    (updateIf r k v).map Prod.fst = schemaKeys := by
  unfold updateIf
  split
  · rw [keys_setKey_of_mem r k v (h ▸ hk), h]
  · exact h

lemma keys_roleFold (pf : List (String × Option String)) :
    ∀ (roles : List String) (r : List (String × Option String)),
      r.map Prod.fst = schemaKeys → (∀ x ∈ roles, x ∈ schemaKeys) →
      (roles.foldl (fun r role =>
        match lookupKV pf role with
        | some v => setKey r role v
        | none => r) r).map Prod.fst = schemaKeys
  | [], r, h, _ => h
  | role :: roles, r, h, hs => by
    rw [List.foldl_cons]
    apply keys_roleFold pf roles
    · cases hl : lookupKV pf role with
      | some v =>
        simp only [hl]
        rw [keys_setKey_of_mem r role v (h ▸ hs role (by simp)), h]
      | none => simpa only [hl]
    · intro x hx
      exact hs x (by simp [hx])

lemma keys_applyRoles (r pf : List (String × Option String))
    (h : r.map Prod.fst = schemaKeys) :
    (applyRoles r pf).map Prod.fst = schemaKeys :=
  keys_roleFold pf rolesList r h (by decide)

lemma keys_default : defaultRecord.map Prod.fst = schemaKeys := by
  decide

lemma keys_chain (a b c d e dec : Option String)
    (pf : List (String × Option String)) :
    (setKey (updateIf (applyRoles (updateIf (updateIf (updateIf (updateIf
        defaultRecord "processo" a) "estado" b) "tipo_processo" c)
        "data_julgamento" d) pf) "banco" e)
        "decisao_para_banco" dec).map Prod.fst = schemaKeys := by
  have h1 := keys_updateIf defaultRecord "processo" a keys_default (by decide)
  have h2 := keys_updateIf _ "estado" b h1 (by decide)
  have h3 := keys_updateIf _ "tipo_processo" c h2 (by decide)
  have h4 := keys_updateIf _ "data_julgamento" d h3 (by decide)
  have h5 := keys_applyRoles _ pf h4
  have h6 := keys_updateIf _ "banco" e h5 (by decide)
  rw [keys_setKey_of_mem _ _ _ (h6 ▸ (by decide : "decisao_para_banco" ∈ schemaKeys)), h6]

lemma keys_extract_acordao (text : String) :
    (extract_acordao_data text).map Prod.fst = schemaKeys := by
  unfold extract_acordao_data
  split
  · exact keys_default
  · exact keys_chain _ _ _ _ _ _ _

/-! ## Helper lemmas on characters and the normalizer -/

lemma mem_of_isPrefixOf :
    ∀ {l1 l2 : List Char}, l1.isPrefixOf l2 = true → ∀ {c : Char}, c ∈ l1 → c ∈ l2
  | [], _, _, _, hc => absurd hc (by simp)
  | _ :: _, [], h, _, _ => by simp [List.isPrefixOf] at h
  | a :: as, b :: bs, h, c, hc => by
    simp only [List.isPrefixOf, Bool.and_eq_true, beq_iff_eq] at h
    rcases List.mem_cons.mp hc with rfl | hc
    · simp [h.1]
    · exact List.mem_cons_of_mem _ (mem_of_isPrefixOf h.2 hc)

lemma mem_of_containsSub {n hay : List Char} (hcs : containsSub n hay = true)
    {c : Char} (hc : c ∈ n) : c ∈ hay := by
  unfold containsSub at hcs
  rw [List.any_eq_true] at hcs
  obtain ⟨t, ht, hp⟩ := hcs
  exact ((List.mem_tails _ _).mp ht).subset (mem_of_isPrefixOf hp hc)

lemma nfdChar_out_fixed {d c : Char} (h : c ∈ nfdChar d)
    (hmn : isMn c = false) : nfdChar c = [c] ∧ c ≠ 'é' ∧ c ≠ 'É' := by
  unfold nfdChar at h
  cases hf : nfdTable.find? (fun p => p.1 = d) with
  | none =>
    rw [hf] at h
    have hcd : c = d := by simpa using h
    subst hcd
    refine ⟨?_, ?_, ?_⟩
    · unfold nfdChar
      rw [hf]
    · rintro rfl
      exact absurd hf (by decide)
    · rintro rfl
      exact absurd hf (by decide)
  | some q =>
    rw [hf] at h
    have hq : q ∈ nfdTable := List.mem_of_find?_eq_some hf
    have master : ∀ q ∈ nfdTable, ∀ c ∈ q.2,
        isMn c = true ∨ (nfdChar c = [c] ∧ c ≠ 'é' ∧ c ≠ 'É') := by decide
    rcases master q hq c h with hmn' | hgood
    · rw [hmn'] at hmn
      cases hmn
    · exact hgood

lemma mem_collapseWs {c : Char} :
    ∀ {b : Bool} {l : List Char}, c ∈ collapseWs b l → c = ' ' ∨ c ∈ l := by
  intro b l
  induction l generalizing b with
  | nil => intro h; simp [collapseWs] at h
  | cons a t ih =>
    intro h
    unfold collapseWs at h
    by_cases ha : isPySpace a = true
    · rw [if_pos ha] at h
      cases b with
      | true =>
        simp only [if_pos rfl] at h
        rcases ih h with h1 | h1
        · exact Or.inl h1
        · exact Or.inr (List.mem_cons_of_mem _ h1)
      | false =>
        simp only [Bool.false_eq_true, if_neg (fun hf : False => hf.elim)] at h
        rcases List.mem_cons.mp h with rfl | h1
        · exact Or.inl rfl
        · rcases ih h1 with h2 | h2
          · exact Or.inl h2
          · exact Or.inr (List.mem_cons_of_mem _ h2)
    · rw [if_neg ha] at h
      rcases List.mem_cons.mp h with rfl | h1
      · exact Or.inr (List.mem_cons_self _ _)
      · rcases ih h1 with h2 | h2
        · exact Or.inl h2
        · exact Or.inr (List.mem_cons_of_mem _ h2)

lemma mem_stripL {c : Char} {l : List Char} (h : c ∈ stripL l) : c ∈ l := by
  unfold stripL at h
  rw [List.mem_reverse] at h
  have h1 := (List.dropWhile_sublist _).subset h
  rw [List.mem_reverse] at h1
  exact (List.dropWhile_sublist _).subset h1

lemma mem_normCore_fixed {l : List Char} {c : Char} (h : c ∈ normCoreL l) :
    nfdChar c = [c] ∧ isMn c = false ∧ c ≠ 'é' ∧ c ≠ 'É' := by
  unfold normCoreL at h
  rcases mem_collapseWs (mem_stripL h) with rfl | hm
  · exact ⟨by decide, by decide, by decide, by decide⟩
  · unfold nfdStrip at hm
    rw [List.mem_filter] at hm
    obtain ⟨hflat, hnot⟩ := hm
    rw [List.mem_flatMap] at hflat
    obtain ⟨d, _, hcd⟩ := hflat
    have hmn : isMn c = false := by
      cases hval : isMn c
      · rfl
      · rw [hval] at hnot
        simp at hnot
    obtain ⟨h1, h2, h3⟩ := nfdChar_out_fixed hcd hmn
    exact ⟨h1, hmn, h2, h3⟩

set_option maxRecDepth 4096 in
lemma upperChar_eq_accE {c : Char} (h : upperChar c = 'É') :
    c = 'é' ∨ c = 'É' := by
  unfold upperChar at h
  split at h
  · next hc =>
    exfalso
    rw [Bool.and_eq_true, decide_eq_true_eq, decide_eq_true_eq] at hc
    have key : ∀ n, n < 123 → ¬(Char.ofNat n = 'É') := by decide
    exact key (c.toNat - 32) (by omega) h
  · split at h
    · next hc =>
      rw [Bool.and_eq_true, Bool.and_eq_true, decide_eq_true_eq,
          decide_eq_true_eq, decide_eq_true_eq] at hc
      have key : ∀ n, n < 0x100 → Char.ofNat n = 'É' → n = 0xc9 := by decide
      have hn : c.toNat - 32 = 0xc9 := key _ (by omega) h
      have hcn : c.toNat = 0xe9 := by omega
      left
      calc c = Char.ofNat c.toNat := (Char.ofNat_toNat c).symm
        _ = Char.ofNat 0xe9 := by rw [hcn]
        _ = 'é' := by decide
    · split at h
      · exact absurd h (by decide)
      · exact Or.inr h

lemma noE_upperL {v : List Char} (hv : ∀ c ∈ v, c ≠ 'é' ∧ c ≠ 'É') :
    'É' ∉ upperL v := by
  intro hmem
  unfold upperL at hmem
  rw [List.mem_flatMap] at hmem
  obtain ⟨d, hd, hin⟩ := hmem
  by_cases hss : d.toNat = 0xdf
  · rw [if_pos hss] at hin
    simp at hin
  · rw [if_neg hss] at hin
    have heq : 'É' = upperChar d := by simpa using hin
    rcases upperChar_eq_accE heq.symm with rfl | rfl
    · exact (hv _ hd).1 rfl
    · exact (hv _ hd).2 rfl

lemma noE_normalizeUpperS (s : String) : 'É' ∉ (normalizeUpperS s).data := by
  unfold normalizeUpperS
  split
  · next h => subst h; simp
  · next h =>
    unfold upperS normalizeTextS
    rw [if_neg h]
    exact noE_upperL (fun c hc =>
      ⟨(mem_normCore_fixed hc).2.2.1, (mem_normCore_fixed hc).2.2.2⟩)

lemma matchedRoleOf_ne_accented_reu (u : String) :
    matchedRoleOf (normalizeUpperS u) ≠ some "RÉU" := by
  intro h
  unfold matchedRoleOf at h
  have hp := List.find?_some h
  exact noE_normalizeUpperS u
    (mem_of_containsSub hp (by decide : 'É' ∈ "RÉU".data))

/-! ## Helper lemmas on the parties association list -/

lemma lookupKV_cons {α : Type} (r : String) (v : α)
    (t : List (String × α)) (k : String) :
    lookupKV ((r, v) :: t) k = if r = k then some v else lookupKV t k := by
  by_cases h : r = k
  · simp [lookupKV, h]
  · simp [lookupKV, h]

lemma lookupKV_addParte_ne {acc : List (String × List String)} {role k : String}
    (hne : role ≠ k) (name : String) :
    lookupKV (addParte acc role name) k = lookupKV acc k := by
  induction acc with
  | nil => simp [addParte, lookupKV_cons, hne, lookupKV]
  | cons p t ih =>
    obtain ⟨r, ns⟩ := p
    unfold addParte
    by_cases hr : r = role
    · rw [if_pos hr, lookupKV_cons, lookupKV_cons]
      have hrk : r ≠ k := hr ▸ hne
      simp [hrk]
    · rw [if_neg hr, lookupKV_cons, lookupKV_cons]
      by_cases hk : r = k
      · simp [hk]
      · simp [hk, ih]

lemma partesGo_no_reu :
    ∀ (fuel : Nat) (lines : List String) (acc : List (String × List String)),
      lookupKV acc "RÉU" = none →
      lookupKV (partesGo fuel lines acc) "RÉU" = none
  | 0, _, acc, hacc => hacc
  | _ + 1, [], acc, hacc => hacc
  | fuel + 1, line :: rest, acc, hacc => by
    unfold partesGo
    dsimp only
    cases hlm : labelMatch (stripS line).data with
    | none => exact partesGo_no_reu fuel rest acc hacc
    | some g =>
      obtain ⟨g1, g2⟩ := g
      dsimp only
      cases hmr : matchedRoleOf (normalizeUpperS ⟨stripL g1⟩) with
      | none => exact partesGo_no_reu fuel rest acc hacc
      | some role =>
        dsimp only
        have hrole : role ≠ "RÉU" := by
          intro hr
          subst hr
          exact matchedRoleOf_ne_accented_reu _ hmr
        apply partesGo_no_reu fuel
        split
        · rw [lookupKV_addParte_ne hrole]
          exact hacc
        · exact hacc

lemma lookupKV_map_none {α β : Type} (f : String × α → β)
    {l : List (String × α)} {k : String} (h : lookupKV l k = none) :
    lookupKV (l.map (fun rn => (rn.1, f rn))) k = none := by
  simp only [lookupKV, Option.map_eq_none', List.find?_eq_none] at h ⊢
  intro x hx
  rw [List.mem_map] at hx
  obtain ⟨y, hy, rfl⟩ := hx
  exact h y hy

/-! ## Helper lemmas: a phrase survives normalization -/

lemma append_of_isPrefixOf :
    ∀ {n t : List Char}, n.isPrefixOf t = true → ∃ y, t = n ++ y
  | [], t, _ => ⟨t, rfl⟩
  | _ :: _, [], h => by simp [List.isPrefixOf] at h
  | a :: as, b :: bs, h => by
    simp only [List.isPrefixOf, Bool.and_eq_true, beq_iff_eq] at h
    obtain ⟨y, hy⟩ := append_of_isPrefixOf h.2
    refine ⟨y, ?_⟩
    rw [List.cons_append, ← h.1, hy]

lemma containsSub_decomp {n hay : List Char} (h : containsSub n hay = true) :
    ∃ x y, hay = x ++ n ++ y := by
  unfold containsSub at h
  rw [List.any_eq_true] at h
  obtain ⟨t, ht, hp⟩ := h
  obtain ⟨x, hx⟩ := (List.mem_tails _ _).mp ht
  obtain ⟨y, hy⟩ := append_of_isPrefixOf hp
  exact ⟨x, y, by rw [← hx, hy, List.append_assoc]⟩

lemma isPrefixCI_append {n : List Char} (y : List Char) :
    ∀ {p : List Char}, isPrefixCI n p = true → isPrefixCI n (p ++ y) = true := by
  induction n with
  | nil => intro p _; rfl
  | cons a as ih =>
    intro p h
    cases p with
    | nil => simp [isPrefixCI] at h
    | cons b bs =>
      simp only [List.cons_append, isPrefixCI, Bool.and_eq_true] at h ⊢
      exact ⟨h.1, ih h.2⟩

lemma containsCI_of_decomp {l x p y n : List Char} (hl : l = x ++ p ++ y)
    (h : isPrefixCI n p = true) : containsCI n l = true := by
  unfold containsCI
  rw [List.any_eq_true]
  refine ⟨p ++ y, ?_, isPrefixCI_append y h⟩
  rw [List.mem_tails]
  exact ⟨x, by rw [hl, List.append_assoc]⟩

/-- The whitespace flag of `collapseWs` after processing a list. -/
def flagAfter : Bool → List Char → Bool
  | b, [] => b
  | _, c :: t => flagAfter (isPySpace c) t

lemma collapseWs_cons (b : Bool) (c : Char) (t : List Char) :
    collapseWs b (c :: t) =
      if isPySpace c = true then
        (if b = true then collapseWs true t else ' ' :: collapseWs true t)
      else c :: collapseWs false t := rfl

lemma flagAfter_cons (b : Bool) (c : Char) (t : List Char) :
    flagAfter b (c :: t) = flagAfter (isPySpace c) t := rfl

lemma flagAfter_append :
    ∀ (u : List Char) (b : Bool) (v : List Char),
      flagAfter b (u ++ v) = flagAfter (flagAfter b u) v
  | [], _, _ => rfl
  | c :: t, b, v => by
    rw [List.cons_append, flagAfter_cons, flagAfter_cons]
    exact flagAfter_append t _ v

lemma collapse_append :
    ∀ (u : List Char) (b : Bool) (r : List Char),
      collapseWs b (u ++ r) = collapseWs b u ++ collapseWs (flagAfter b u) r
  | [], _, _ => rfl
  | c :: t, b, r => by
    rw [List.cons_append, collapseWs_cons, collapseWs_cons, flagAfter_cons]
    by_cases hc : isPySpace c = true
    · rw [if_pos hc, if_pos hc, hc]
      cases b with
      | true =>
        rw [if_pos rfl, if_pos rfl]
        exact collapse_append t true r
      | false =>
        rw [if_neg Bool.false_ne_true, if_neg Bool.false_ne_true,
            List.cons_append]
        exact congrArg (' ' :: ·) (collapse_append t true r)
    · have hc' : isPySpace c = false := by
        cases h : isPySpace c
        · rfl
        · exact absurd h hc
      rw [if_neg hc, if_neg hc, hc', List.cons_append]
      exact congrArg (c :: ·) (collapse_append t false r)

lemma nfdStrip_append (a b : List Char) :
    nfdStrip (a ++ b) = nfdStrip a ++ nfdStrip b := by
  simp [nfdStrip, List.flatMap_append, List.filter_append]

lemma upperL_append (a b : List Char) :
    upperL (a ++ b) = upperL a ++ upperL b := by
  simp [upperL, List.flatMap_append]

lemma dropWhile_keeps_mid {P : List Char}
    (hP5 : ∀ c, P.head? = some c → isPySpace c = false) (hPne : P ≠ []) :
    ∀ (x y : List Char),
      ∃ x1, (x ++ P ++ y).dropWhile isPySpace = x1 ++ P ++ y
  | [], y => by
    cases P with
    | nil => exact absurd rfl hPne
    | cons c p' =>
      refine ⟨[], ?_⟩
      simp only [List.nil_append, List.cons_append, List.dropWhile_cons]
      rw [if_neg]
      rw [hP5 c rfl]
      simp
  | c :: t, y => by
    rw [List.cons_append, List.cons_append, List.dropWhile_cons]
    split
    · exact dropWhile_keeps_mid hP5 hPne t y
    · exact ⟨c :: t, by simp⟩

lemma stripL_keeps_mid {P : List Char}
    (hP5 : ∀ c, P.head? = some c → isPySpace c = false)
    (hP6 : ∀ c, P.getLast? = some c → isPySpace c = false) (hPne : P ≠ []) :
    ∀ (x y : List Char), ∃ x1 y1, stripL (x ++ P ++ y) = x1 ++ P ++ y1 := by
  intro x y
  unfold stripL
  obtain ⟨x1, hx1⟩ := dropWhile_keeps_mid hP5 hPne x y
  rw [hx1]
  have hrev : (x1 ++ P ++ y).reverse = y.reverse ++ P.reverse ++ x1.reverse := by
    simp [List.append_assoc]
  rw [hrev]
  have hP5' : ∀ c, P.reverse.head? = some c → isPySpace c = false := by
    intro c hc
    rw [List.head?_reverse] at hc
    exact hP6 c hc
  have hPne' : P.reverse ≠ [] := by simpa using hPne
  obtain ⟨y1, hy1⟩ := dropWhile_keeps_mid hP5' hPne' y.reverse x1.reverse
  rw [hy1]
  refine ⟨x1, y1.reverse, ?_⟩
  simp [List.append_assoc]

/-- A phrase `P` that is already normal — NFD-fixed and mark-free,
collapse-invariant from any flag state, leaving the whitespace flag off,
upper-case-invariant, with non-whitespace ends — survives
`normalize_upper` as a contiguous substring of the output. -/
lemma normalizeUpper_keeps_phrase {P : List Char}
    (hP1 : nfdStrip P = P)
    (hP2 : ∀ f, collapseWs f P = P)
    (hP3 : ∀ f, flagAfter f P = false)
    (hP4 : upperL P = P)
    (hP5 : ∀ c, P.head? = some c → isPySpace c = false)
    (hP6 : ∀ c, P.getLast? = some c → isPySpace c = false)
    (hPne : P ≠ [])
    (disp : String) (x y : List Char) (hxy : disp.data = x ++ P ++ y) :
    ∃ x' y', (normalizeUpperS disp).data = x' ++ P ++ y' := by
  have hne : disp ≠ "" := by
    intro he
    rw [he] at hxy
    have : P = [] := by
      rcases List.append_eq_nil.mp ((List.append_assoc x P y ▸ hxy).symm)
        with ⟨_, h2⟩
      exact (List.append_eq_nil.mp h2).1
    exact hPne this
  unfold normalizeUpperS
  rw [if_neg hne]
  unfold normalizeTextS
  rw [if_neg hne]
  unfold upperS
  have hdata : (normCoreL disp.data) = normCoreL (x ++ P ++ y) := by rw [hxy]
  unfold normCoreL at hdata
  rw [nfdStrip_append, nfdStrip_append, hP1] at hdata
  rw [collapse_append, collapse_append, flagAfter_append, hP3, hP2] at hdata
  obtain ⟨x1, y1, hst⟩ := stripL_keeps_mid hP5 hP6 hPne
    (collapseWs false (nfdStrip x)) (collapseWs false (nfdStrip y))
  rw [hst] at hdata
  refine ⟨upperL x1, upperL y1, ?_⟩
  show upperL (stripL (collapseWs false (nfdStrip disp.data))) = _
  rw [hdata, upperL_append, upperL_append, hP4]

/-! ## Helper lemmas for idempotence of the normalizer -/

lemma nfdStrip_fixed :
    ∀ (m : List Char), (∀ c ∈ m, nfdChar c = [c] ∧ isMn c = false) →
      nfdStrip m = m
  | [], _ => rfl
  | a :: t, h => by
    have ha := h a (List.mem_cons_self _ _)
    unfold nfdStrip
    rw [List.flatMap_cons, List.filter_append, ha.1]
    have h1 : List.filter (fun c => !isMn c) [a] = [a] := by simp [ha.2]
    rw [h1]
    have h2 := nfdStrip_fixed t (fun c hc => h c (List.mem_cons_of_mem _ hc))
    unfold nfdStrip at h2
    rw [h2]
    rfl

/-- The pairwise condition under which `collapseWs` (and the strip) leave a
list unchanged: every whitespace character is a single space not followed by
further whitespace. -/
def wsOkPair (a b : Char) : Bool :=
  !isPySpace a || (a = ' ' && !isPySpace b)

/-- Whitespace-normal form: whitespace characters are `' '` and never
adjacent. -/
def wsNormB : List Char → Bool
  | [] => true
  | [c] => !isPySpace c || c = ' '
  | a :: b :: t => wsOkPair a b && wsNormB (b :: t)

lemma wsNormB_tail {a : Char} {t : List Char}
    (h : wsNormB (a :: t) = true) : wsNormB t = true := by
  cases t with
  | nil => rfl
  | cons b t' =>
    unfold wsNormB at h
    exact (Bool.and_eq_true _ _ ▸ h).2

lemma wsNormB_append_left :
    ∀ (x y : List Char), wsNormB (x ++ y) = true → wsNormB x = true
  | [], _, _ => rfl
  | [c], y, h => by
    cases y with
    | nil => simpa using h
    | cons d dt =>
      simp only [List.cons_append, List.nil_append] at h
      unfold wsNormB at h
      rw [Bool.and_eq_true] at h
      unfold wsOkPair at h
      unfold wsNormB
      rcases Bool.or_eq_true _ _ |>.mp h.1 with h1 | h1
      · rw [h1]; rfl
      · rw [Bool.and_eq_true] at h1
        rw [h1.1]
        simp
  | a :: b :: t, y, h => by
    simp only [List.cons_append] at h
    unfold wsNormB at h
    rw [Bool.and_eq_true] at h
    have ih := wsNormB_append_left (b :: t) y (by simpa using h.2)
    unfold wsNormB
    rw [Bool.and_eq_true]
    exact ⟨h.1, ih⟩

lemma wsNormB_dropWhile {p : Char → Bool} :
    ∀ {l : List Char}, wsNormB l = true → wsNormB (l.dropWhile p) = true := by
  intro l
  induction l with
  | nil => intro h; exact h
  | cons a t ih =>
    intro h
    rw [List.dropWhile_cons]
    split
    · exact ih (wsNormB_tail h)
    · exact h

lemma collapse_true_head :
    ∀ (l : List Char) (c : Char), (collapseWs true l).head? = some c →
      isPySpace c = false
  | [], c, h => by simp [collapseWs] at h
  | a :: t, c, h => by
    unfold collapseWs at h
    by_cases ha : isPySpace a = true
    · rw [if_pos ha] at h
      rw [if_pos rfl] at h
      exact collapse_true_head t c h
    · rw [if_neg ha] at h
      have hca : a = c := by simpa using h
      subst hca
      cases hval : isPySpace a
      · rfl
      · exact absurd hval ha

lemma collapse_id :
    ∀ (m : List Char), wsNormB m = true → collapseWs false m = m
  | [], _ => rfl
  | [c], h => by
    unfold collapseWs
    by_cases hc : isPySpace c = true
    · have hsp : c = ' ' := by
        unfold wsNormB at h
        rcases Bool.or_eq_true _ _ |>.mp h with h1 | h1
        · rw [hc] at h1; simp at h1
        · exact of_decide_eq_true h1
      rw [if_pos hc, hsp]
      rfl
    · rw [if_neg hc]
      rfl
  | a :: b :: t, h => by
    unfold wsNormB at h
    rw [Bool.and_eq_true] at h
    obtain ⟨hab, ht⟩ := h
    have hbt := collapse_id (b :: t) ht
    by_cases ha : isPySpace a = true
    · have hpair : a = ' ' ∧ isPySpace b = false := by
        unfold wsOkPair at hab
        rcases Bool.or_eq_true _ _ |>.mp hab with h1 | h1
        · rw [ha] at h1; simp at h1
        · rw [Bool.and_eq_true] at h1
          exact ⟨of_decide_eq_true h1.1, by simpa using h1.2⟩
      unfold collapseWs
      rw [if_pos ha]
      rw [if_neg Bool.false_ne_true]
      unfold collapseWs at hbt ⊢
      rw [if_neg (by simp [hpair.2])] at hbt ⊢
      rw [hpair.1]
      exact congrArg _ hbt
    · unfold collapseWs
      rw [if_neg ha, hbt]

lemma wsNorm_collapse :
    ∀ (b : Bool) (l : List Char), wsNormB (collapseWs b l) = true
  | _, [] => rfl
  | b, a :: t => by
    unfold collapseWs
    by_cases ha : isPySpace a = true
    · rw [if_pos ha]
      cases b with
      | true =>
        rw [if_pos rfl]
        exact wsNorm_collapse true t
      | false =>
        rw [if_neg Bool.false_ne_true]
        cases hct : collapseWs true t with
        | nil => decide
        | cons d dt =>
          have hd : isPySpace d = false :=
            collapse_true_head t d (by rw [hct]; rfl)
          have hrest : wsNormB (d :: dt) = true := by
            rw [← hct]; exact wsNorm_collapse true t
          unfold wsNormB wsOkPair
          rw [Bool.and_eq_true]
          exact ⟨by simp [hd], hrest⟩
    · rw [if_neg ha]
      cases hct : collapseWs false t with
      | nil =>
        unfold wsNormB
        simp [ha]
      | cons d dt =>
        have hrest : wsNormB (d :: dt) = true := by
          rw [← hct]; exact wsNorm_collapse false t
        unfold wsNormB wsOkPair
        rw [Bool.and_eq_true]
        exact ⟨by simp [ha], hrest⟩

lemma head_dropWhile_not {p : Char → Bool} :
    ∀ (l : List Char) (c : Char), (l.dropWhile p).head? = some c → p c = false
  | [], c, h => by simp [List.dropWhile] at h
  | a :: t, c, h => by
    rw [List.dropWhile_cons] at h
    split at h
    · exact head_dropWhile_not t c h
    · next hpa =>
      have hca : a = c := by simpa using h
      subst hca
      cases hval : p a
      · rfl
      · exact absurd hval hpa

lemma dropWhile_id_of_head {p : Char → Bool} (l : List Char)
    (h : ∀ c, l.head? = some c → p c = false) : l.dropWhile p = l := by
  cases l with
  | nil => rfl
  | cons a t =>
    rw [List.dropWhile_cons, if_neg]
    rw [h a rfl]
    simp

lemma stripL_id (m : List Char)
    (h1 : ∀ c, m.head? = some c → isPySpace c = false)
    (h2 : ∀ c, m.getLast? = some c → isPySpace c = false) : stripL m = m := by
  unfold stripL
  rw [dropWhile_id_of_head m h1]
  rw [dropWhile_id_of_head m.reverse
    (fun c hc => h2 c (by rwa [List.head?_reverse] at hc))]
  exact List.reverse_reverse m

lemma exists_append_dropTrailing (w : List Char) :
    ∃ t, w = (w.reverse.dropWhile isPySpace).reverse ++ t := by
  obtain ⟨u, hu⟩ := List.dropWhile_suffix (l := w.reverse) isPySpace
  refine ⟨u.reverse, ?_⟩
  calc w = w.reverse.reverse := (List.reverse_reverse w).symm
    _ = (u ++ w.reverse.dropWhile isPySpace).reverse := by rw [hu]
    _ = (w.reverse.dropWhile isPySpace).reverse ++ u.reverse := by
          rw [List.reverse_append]

lemma getLast?_of_suffix_ne_nil {s l : List Char} (h : s <:+ l)
    (hne : s ≠ []) : s.getLast? = l.getLast? := by
  obtain ⟨t, rfl⟩ := h
  rw [List.getLast?_append]
  cases hs : s.getLast? with
  | none => exact absurd (List.getLast?_eq_none_iff.mp hs) hne
  | some c => rfl

lemma wsNormB_stripL {v : List Char} (h : wsNormB v = true) :
    wsNormB (stripL v) = true := by
  unfold stripL
  have h1 : wsNormB (v.dropWhile isPySpace) = true := wsNormB_dropWhile h
  obtain ⟨t, ht⟩ := exists_append_dropTrailing (v.dropWhile isPySpace)
  exact wsNormB_append_left _ t (by rw [← ht]; exact h1)

lemma stripL_head_last (v : List Char) :
    (∀ c, (stripL v).head? = some c → isPySpace c = false) ∧
    (∀ c, (stripL v).getLast? = some c → isPySpace c = false) := by
  constructor
  · intro c hc
    unfold stripL at hc
    rw [List.head?_reverse] at hc
    by_cases hne : ((v.dropWhile isPySpace).reverse.dropWhile isPySpace) = []
    · rw [hne] at hc
      simp at hc
    · rw [getLast?_of_suffix_ne_nil (List.dropWhile_suffix _) hne] at hc
      rw [List.getLast?_reverse] at hc
      exact head_dropWhile_not v c hc
  · intro c hc
    unfold stripL at hc
    rw [List.getLast?_reverse] at hc
    exact head_dropWhile_not _ c hc

lemma normCore_idem (l : List Char) : normCoreL (normCoreL l) = normCoreL l := by
  have hfix : ∀ c ∈ normCoreL l, nfdChar c = [c] ∧ isMn c = false :=
    fun c hc => ⟨(mem_normCore_fixed hc).1, (mem_normCore_fixed hc).2.1⟩
  have hA : nfdStrip (normCoreL l) = normCoreL l := nfdStrip_fixed _ hfix
  have hnorm : wsNormB (normCoreL l) = true := by
    unfold normCoreL
    exact wsNormB_stripL (wsNorm_collapse false (nfdStrip l))
  have hB : collapseWs false (normCoreL l) = normCoreL l := collapse_id _ hnorm
  have hC : stripL (normCoreL l) = normCoreL l := by
    have hh := stripL_head_last (collapseWs false (nfdStrip l))
    exact stripL_id _ hh.1 hh.2
  calc normCoreL (normCoreL l)
      = stripL (collapseWs false (nfdStrip (normCoreL l))) := rfl
    _ = stripL (collapseWs false (normCoreL l)) := by rw [hA]
    _ = stripL (normCoreL l) := by rw [hB]
    _ = normCoreL l := hC

lemma normalizeTextS_idem (s : String) :
    normalizeTextS (normalizeTextS s) = normalizeTextS s := by
  by_cases hs : s = ""
  · subst hs
    rfl
  · have hx : normalizeTextS s = ⟨normCoreL s.data⟩ := by
      unfold normalizeTextS
      rw [if_neg hs]
    rw [hx]
    by_cases hm : (⟨normCoreL s.data⟩ : String) = ""
    · rw [hm]
      rfl
    · unfold normalizeTextS
      rw [if_neg hm]
      exact congrArg String.mk (normCore_idem s.data)

/-! ## Claim theorems -/

/-- C1: for every input string `text`, `extract_acordao_data text` returns a
record whose key set (in order) is exactly the fifteen fixed schema keys —
`processo`, `tipo_processo`, `data_julgamento`, `estado`, the nine role keys,
`banco` and `decisao_para_banco` — with no key missing and no extra key;
every value is an `Option String` (a string or the absent marker) by
construction. -/
theorem claim1_fixed_schema_keys (text : String) :
    (extract_acordao_data text).map Prod.fst = schemaKeys :=
  keys_extract_acordao text

/-- C7: for the empty string and for any whitespace-only string,
`extract_acordao_data` returns the record in which every one of the fifteen
schema fields is the absent marker (and, being a total function, raises no
exception). -/
theorem claim7_blank_input_all_absent (s : String)
    (h : ∀ c ∈ s.data, isPySpace c = true) :
    extract_acordao_data s = defaultRecord := by
  unfold extract_acordao_data
  have hs : stripS s = "" := by
    unfold stripS
    rw [stripL_nil_of_all_space h]
  rw [hs]
  simp

/-- Witness for C7 at the concrete whitespace-only input `" \t "`. -/
theorem claim7_blank_input_all_absent_witness :
    (∀ c ∈ (" \t " : String).data, isPySpace c = true) ∧
    extract_acordao_data " \t " = defaultRecord :=
  ⟨by decide, claim7_blank_input_all_absent " \t " (by decide)⟩

lemma matchedOutcomeKey_negar {d : String}
    (h : containsCI "NEGAM PROVIMENTO".data d.data = true) :
    matchedOutcomeKey d = some "negar_provimento" := by
  unfold matchedOutcomeKey OUTCOME_PATTERNS
  rw [List.find?_cons_of_pos]
  · rfl
  · simp only [List.any_cons, List.any_nil, Bool.or_eq_true]
    exact Or.inl (Or.inr (Or.inl h))

/-- C2: the outcome-classification scenario, for *every* operative clause
containing `NEGAM PROVIMENTO AO RECURSO` (Python's substring `in`): with the
parties mapping `{RECORRENTE: "Banco Itaú Unibanco"}` and bank name
`"Banco Itaú Unibanco"`, the clause matches the `negar_provimento` outcome
kind (the first table entry, whose phrase survives normalization), the
bank's first token `BANCO` places it in the `RECORRENTE` role, and the
negative-disposition polarity rule yields `contraria`. -/
theorem claim2_negam_provimento_scenario (disp : String)
    (h : containsSubS "NEGAM PROVIMENTO AO RECURSO" disp = true) :
    matchedOutcomeKey (normalizeUpperS disp) = some "negar_provimento" ∧
    bankRolesOf [("RECORRENTE", some "Banco Itaú Unibanco")] "Banco Itaú Unibanco"
      = ["RECORRENTE"] ∧
    infer_decision_for_bank (some disp)
      [("RECORRENTE", some "Banco Itaú Unibanco")]
      (some "Banco Itaú Unibanco") = some "contraria" := by
  obtain ⟨x, y, hxy⟩ := containsSub_decomp h
  obtain ⟨x', y', hnu⟩ := normalizeUpper_keeps_phrase
    (P := "NEGAM PROVIMENTO AO RECURSO".data)
    (by decide) (fun f => by cases f <;> decide) (fun f => by cases f <;> decide)
    (by decide) (by decide) (by decide) (by decide) disp x y hxy
  have hci : containsCI "NEGAM PROVIMENTO".data (normalizeUpperS disp).data = true :=
    containsCI_of_decomp hnu (by decide)
  have hmk : matchedOutcomeKey (normalizeUpperS disp) = some "negar_provimento" :=
    matchedOutcomeKey_negar hci
  have hne : disp ≠ "" := by
    intro he
    rw [he] at h
    exact absurd h (by decide)
  have ht : truthy (some disp) = true := by
    unfold truthy
    simp [hne]
  refine ⟨hmk, by decide, ?_⟩
  unfold infer_decision_for_bank
  rw [ht]
  simp only [Option.getD]
  rw [hmk]
  rfl

/-- Witness for C2 at a concrete clause containing the phrase. -/
theorem claim2_negam_provimento_scenario_witness :
    containsSubS "NEGAM PROVIMENTO AO RECURSO"
      "ACORDAM os Ministros da Terceira Turma, por unanimidade, NEGAM PROVIMENTO AO RECURSO especial, nos termos do voto do relator." = true ∧
    infer_decision_for_bank
      (some "ACORDAM os Ministros da Terceira Turma, por unanimidade, NEGAM PROVIMENTO AO RECURSO especial, nos termos do voto do relator.")
      [("RECORRENTE", some "Banco Itaú Unibanco")]
      (some "Banco Itaú Unibanco") = some "contraria" :=
  ⟨by decide,
   (claim2_negam_provimento_scenario
     "ACORDAM os Ministros da Terceira Turma, por unanimidade, NEGAM PROVIMENTO AO RECURSO especial, nos termos do voto do relator."
     (by decide)).2.2⟩

/-- C3 counterexample: the text `31/02/2023 e 28/08/2023` contains the valid
`DD/MM/YYYY` substring `28/08/2023` surrounded by other text, yet the
extractor returns absent, because only the leftmost numeric match
(`31/02/2023`, an invalid date) is ever examined. -/
theorem claim3_counterexample :
    containsSubS "28/08/2023" "31/02/2023 e 28/08/2023" = true ∧
    validDate 2023 8 28 = true ∧
    extract_data_julgamento "31/02/2023 e 28/08/2023" = none := by
  decide

/-- C3 amended: when the textual-date pattern attempt yields nothing, the
result is decided by the *first* numeric-pattern match alone: a valid first
match is returned re-formatted (zero-padded day and month); an invalid first
match makes the extractor return absent even if a valid date substring
occurs later in the text. -/
theorem claim3_amended (txt : String) (d m y : List Char)
    (h1 : dataTextualPart txt = none)
    (h2 : numDateFirst txt = some (d, m, y)) :
    extract_data_julgamento txt =
      (if validDate (toNatDigits y) (toNatDigits m) (toNatDigits d)
       then some (fmtDate (toNatDigits d) (toNatDigits m) (toNatDigits y))
       else none) := by
  unfold extract_data_julgamento
  rw [h1]
  unfold dataNumericPart
  rw [h2]

/-- Witness for C3 amended: the valid-first-match case on
`"x 28/08/2023 y"` and the invalid-first-match case on
`"31/02/2023 e 28/08/2023"`. -/
theorem claim3_amended_witness :
    (dataTextualPart "x 28/08/2023 y" = none ∧
     numDateFirst "x 28/08/2023 y" = some ("28".data, "08".data, "2023".data) ∧
     extract_data_julgamento "x 28/08/2023 y" =
       (if validDate (toNatDigits "2023".data) (toNatDigits "08".data)
            (toNatDigits "28".data)
        then some (fmtDate (toNatDigits "28".data) (toNatDigits "08".data)
            (toNatDigits "2023".data))
        else none)) ∧
    extract_data_julgamento "31/02/2023 e 28/08/2023" =
      (if validDate (toNatDigits "2023".data) (toNatDigits "02".data)
           (toNatDigits "31".data)
       then some (fmtDate (toNatDigits "31".data) (toNatDigits "02".data)
           (toNatDigits "2023".data))
       else none) :=
  ⟨⟨by decide, by decide,
    claim3_amended "x 28/08/2023 y" "28".data "08".data "2023".data
      (by decide) (by decide)⟩,
   claim3_amended "31/02/2023 e 28/08/2023" "31".data "02".data "2023".data
     (by decide) (by decide)⟩

/-- C4 counterexample: on `"... o banco ITAÚ UNIBANCO S.A. ..."` the
known-list check fires, but the entry returned is the unaccented
`ITAU UNIBANCO` (the list's second entry), not the accented first entry
`ITAÚ UNIBANCO` the claim names: the accented entry can never be a substring
of the accent-stripped normalized text. -/
theorem claim4_counterexample :
    detect_bank "... o banco ITAÚ UNIBANCO S.A. ..." = some "ITAU UNIBANCO" ∧
    some "ITAU UNIBANCO" ≠ (some "ITAÚ UNIBANCO" : Option String) ∧
    containsSub (upperL "ITAÚ UNIBANCO".data)
      (normalizeUpperS "... o banco ITAÚ UNIBANCO S.A. ...").data = false := by
  decide

/-- C4 amended: whenever the known-bank-list containment check fires,
`detect_bank` returns that canonical list entry (an element of
`COMMON_BANKS`); on the example text the entry that fires is the unaccented
`ITAU UNIBANCO`, since the accented spelling cannot occur in the
accent-stripped text. -/
theorem claim4_amended :
    (∀ txt b, bankListHit txt = some b →
      detect_bank txt = some b ∧ b ∈ COMMON_BANKS) ∧
    detect_bank "... o banco ITAÚ UNIBANCO S.A. ..." = some "ITAU UNIBANCO" := by
  constructor
  · intro txt b h
    refine ⟨?_, ?_⟩
    · unfold detect_bank
      rw [h]
    · unfold bankListHit at h
      exact List.mem_of_find?_eq_some h
  · decide

/-- Witness for C4 amended at the example text. -/
theorem claim4_amended_witness :
    bankListHit "... o banco ITAÚ UNIBANCO S.A. ..." = some "ITAU UNIBANCO" ∧
    (detect_bank "... o banco ITAÚ UNIBANCO S.A. ..." = some "ITAU UNIBANCO" ∧
     "ITAU UNIBANCO" ∈ COMMON_BANKS) :=
  ⟨by decide, claim4_amended.1 _ _ (by decide)⟩

/-- C5 counterexample: on the claimed block the party extractor does yield
the continuation absorbed with a single space, but the stored name is
accent-normalized — `Continuacao`, not `Continuação` — so the value the
claim states is not the one returned. -/
theorem claim5_counterexample :
    lookupKV (extract_partes_from_block
        "AGRAVANTE: Banco XYZ S.A.\nContinuação do nome\nAGRAVADO: Fulano de Tal")
        "AGRAVANTE" ≠ some (some "Banco XYZ S.A. Continuação do nome") ∧
    lookupKV (extract_partes_from_block
        "AGRAVANTE: Banco XYZ S.A.\nContinuação do nome\nAGRAVADO: Fulano de Tal")
        "AGRAVANTE" = some (some "Banco XYZ S.A. Continuacao do nome") := by
  decide

/-- C5 amended: the continuation line is absorbed with a single separating
space and the names are stored accent-stripped (`normalize_text`), giving
`AGRAVANTE = "Banco XYZ S.A. Continuacao do nome"` and
`AGRAVADO = "Fulano de Tal"`. -/
theorem claim5_amended :
    extract_partes_from_block
        "AGRAVANTE: Banco XYZ S.A.\nContinuação do nome\nAGRAVADO: Fulano de Tal" =
      [("AGRAVANTE", some "Banco XYZ S.A. Continuacao do nome"),
       ("AGRAVADO", some "Fulano de Tal")] := by
  decide

/-- C6 counterexample: the extractor can return a date that is *not* in
`DD/MM/YYYY` format: for `01/01/0999` the constructed date (year 999) is
valid, but `strftime("%d/%m/%Y")` on the code's platform prints the year
unpadded, producing the nine-character `01/01/999`. -/
theorem claim6_counterexample :
    extract_data_julgamento "JULGADO: 01/01/0999" = some "01/01/999" ∧
    ("01/01/999" : String).length = 9 ∧
    validDate 999 1 1 = true := by
  decide

/-- C6 amended: every non-absent result denotes a valid calendar date,
formatted with zero-padded day and month and the year printed in plain
decimal (four digits exactly when the year is at least 1000); a textual
match with an invalid calendar triple is treated as a non-match and the
extractor continues to the numeric pattern; an invalid leftmost numeric
match yields absent — an impossible calendar value is never reported. -/
theorem claim6_amended :
    (∀ txt s, extract_data_julgamento txt = some s →
       ∃ d m y, validDate y m d = true ∧ s = fmtDate d m y) ∧
    (∀ txt d mon y mes, textDateFirst txt = some (d, mon, y) →
       mesesLookup ⟨lowerL mon⟩ = some mes →
       validDate (toNatDigits y) mes (toNatDigits d) = false →
       extract_data_julgamento txt = dataNumericPart txt) ∧
    (∀ txt d m y, numDateFirst txt = some (d, m, y) →
       validDate (toNatDigits y) (toNatDigits m) (toNatDigits d) = false →
       dataNumericPart txt = none) := by
  refine ⟨?_, ?_, ?_⟩
  · intro txt s h
    unfold extract_data_julgamento at h
    cases htp : dataTextualPart txt with
    | some r =>
      rw [htp] at h
      dsimp only at h
      obtain rfl : r = s := Option.some_inj.mp h
      unfold dataTextualPart at htp
      cases htf : textDateFirst txt with
      | none => rw [htf] at htp; exact absurd htp (by simp)
      | some g =>
        obtain ⟨d, mon, yr⟩ := g
        rw [htf] at htp
        dsimp only at htp
        cases hm : mesesLookup ⟨lowerL mon⟩ with
        | none => rw [hm] at htp; exact absurd htp (by simp)
        | some mes =>
          rw [hm] at htp
          dsimp only at htp
          by_cases hv : validDate (toNatDigits yr) mes (toNatDigits d) = true
          · rw [if_pos hv] at htp
            exact ⟨toNatDigits d, mes, toNatDigits yr, hv,
              (Option.some_inj.mp htp).symm⟩
          · rw [if_neg hv] at htp; exact absurd htp (by simp)
    | none =>
      rw [htp] at h
      dsimp only at h
      unfold dataNumericPart at h
      cases hnf : numDateFirst txt with
      | none => rw [hnf] at h; exact absurd h (by simp)
      | some g =>
        obtain ⟨d, m, yr⟩ := g
        rw [hnf] at h
        dsimp only at h
        by_cases hv : validDate (toNatDigits yr) (toNatDigits m) (toNatDigits d) = true
        · rw [if_pos hv] at h
          exact ⟨toNatDigits d, toNatDigits m, toNatDigits yr, hv,
            (Option.some_inj.mp h).symm⟩
        · rw [if_neg hv] at h; exact absurd h (by simp)
  · intro txt d mon y mes h1 h2 hv
    unfold extract_data_julgamento
    have htp : dataTextualPart txt = none := by
      unfold dataTextualPart
      rw [h1]
      dsimp only
      rw [h2]
      dsimp only
      simp [hv]
    rw [htp]
  · intro txt d m y h hv
    unfold dataNumericPart
    rw [h]
    dsimp only
    simp [hv]

/-- Witness for C6 amended: the shape of a returned date, the textual
invalid-date fall-through, and the numeric invalid-date absence, at
concrete inputs. -/
theorem claim6_amended_witness :
    (∃ d m y, validDate y m d = true ∧ "28/08/2023" = fmtDate d m y) ∧
    extract_data_julgamento "31 de fevereiro de 2023, JULGADO: 28/08/2023" =
      dataNumericPart "31 de fevereiro de 2023, JULGADO: 28/08/2023" ∧
    dataNumericPart "31/02/2023" = none :=
  ⟨claim6_amended.1 "JULGADO: 28/08/2023" "28/08/2023" (by decide),
   claim6_amended.2.1 "31 de fevereiro de 2023, JULGADO: 28/08/2023"
     "31".data "fevereiro".data "2023".data 2 (by decide) (by decide) (by decide),
   claim6_amended.2.2 "31/02/2023" "31".data "02".data "2023".data
     (by decide) (by decide)⟩

/-- C9: the text normalizer is idempotent: for every value `s` of type
`str | None`, `normalize_text (normalize_text s) = normalize_text s` —
normalizing an already-normalized string (diacritics stripped, whitespace
runs collapsed to single spaces, ends trimmed) returns the same string, and
the absent marker passes through unchanged. -/
theorem claim9_normalize_idempotent (s : Option String) :
    normalize_text (normalize_text s) = normalize_text s := by
  cases s with
  | none => rfl
  | some str =>
    unfold normalize_text
    exact congrArg some (normalizeTextS_idem str)

/-- C10: role matching compares `ROLE_LABELS` entries against the
accent-stripped uppercased label, so the accented vocabulary entry `RÉU`
can never be the matched role (no normalized label contains `É`, and any
label containing `RÉU` normalizes to contain `REU`, matched earlier);
consequently no parties mapping from any block has a `RÉU` key, a party
line `RÉU: <name>` populates the `REU` field (shown on a concrete document,
both at the parties level and in the assembled record), and no assembled
record ever contains a `RÉU` key. -/
theorem claim10_accented_reu_never_matched :
    (∀ u : String, (matchedRoleOf (normalizeUpperS u) == some "RÉU") = false) ∧
    (∀ block : String,
      lookupKV (extract_partes_from_block block) "RÉU" = none) ∧
    lookupKV (extract_partes_from_block "RÉU: Fulano de Tal") "REU" =
      some (some "Fulano de Tal") ∧
    lookupKV (extract_acordao_data "RÉU: Fulano de Tal") "REU" =
      some (some "Fulano de Tal") ∧
    (∀ text : String,
      ((extract_acordao_data text).map Prod.fst).contains "RÉU" = false) := by
  refine ⟨?_, ?_, by decide, by decide, ?_⟩
  · intro u
    rw [beq_eq_false_iff_ne]
    exact matchedRoleOf_ne_accented_reu u
  · intro block
    unfold extract_partes_from_block
    dsimp only
    apply lookupKV_map_none
    exact partesGo_no_reu _ _ _ rfl
  · intro text
    rw [keys_extract_acordao]
    decide

/-- C8 counterexample: on `"O BANCO NACIONAL decidiu"` the list check fails
and the second strategy's regex matches with captured name `NACIONAL`, but
`detect_bank` returns the normalized *whole match* `BANCO NACIONAL`
(`m.group(0)`), not the captured text following the word `BANCO`. -/
theorem claim8_counterexample :
    bankListHit "O BANCO NACIONAL decidiu" = none ∧
    bancoRegexSearch "O BANCO NACIONAL decidiu".data =
      some ("BANCO NACIONAL".data, "NACIONAL".data) ∧
    detect_bank "O BANCO NACIONAL decidiu" = some "BANCO NACIONAL" ∧
    detect_bank "O BANCO NACIONAL decidiu" ≠ some (normalizeTextS "NACIONAL") := by
  decide

/-- C8 amended: when the list check fails and the `BANCO ...` regex matches,
`detect_bank` returns the *whole* matched span — the word `BANCO`, the
separating whitespace and the captured name — stripped, inner whitespace
runs collapsed, and normalized (not merely the captured name). -/
theorem claim8_amended (txt : String) (g0 g1 : List Char)
    (h1 : bankListHit txt = none)
    (h2 : bancoRegexSearch txt.data = some (g0, g1)) :
    detect_bank txt = some (normalizeTextS ⟨collapse2 (stripL g0)⟩) := by
  unfold detect_bank
  rw [h1, h2]

/-- Witness for C8 amended at `"O BANCO NACIONAL decidiu"`. -/
theorem claim8_amended_witness :
    bankListHit "O BANCO NACIONAL decidiu" = none ∧
    bancoRegexSearch "O BANCO NACIONAL decidiu".data =
      some ("BANCO NACIONAL".data, "NACIONAL".data) ∧
    detect_bank "O BANCO NACIONAL decidiu" =
      some (normalizeTextS ⟨collapse2 (stripL "BANCO NACIONAL".data)⟩) :=
  ⟨by decide, by decide,
   claim8_amended "O BANCO NACIONAL decidiu" "BANCO NACIONAL".data
     "NACIONAL".data (by decide) (by decide)⟩

end BancosSTJ
